import Mathlib

/-!
Verification development for the quiz-bank CSV transformation engine
(`src/index.tsx`): the CSV tokenizer `parseCSV`, the smart-answer resolver
`processSmartAnswer`, the CSV emitter `generateCSV`, and the configuration
codec (`JSON.stringify` / `JSON.parse` on the `ExportField[]` list).

JavaScript strings are modelled as Lean `String` / `List Char`; machine
numbers that occur (column indices) are natural numbers; `undefined`
lookups and `|| ''` coalescing are modelled with `List.getD` and explicit
`Option`.
-/

namespace ExamFactory

/-! ### JavaScript whitespace and `String.prototype.trim` -/

/-- The JavaScript `WhiteSpace` and `LineTerminator` character set used by
`String.prototype.trim`: TAB, LF, VT, FF, CR, SPACE, NBSP, Ogham space,
the Unicode `Zs` spaces U+2000..U+200A, LS, PS, NNBSP, MMSP, ideographic
space and the BOM. -/
def jsIsWs (c : Char) : Bool :=
  let n := c.toNat
  n == 0x9 || n == 0xA || n == 0xB || n == 0xC || n == 0xD || n == 0x20 ||
  n == 0xA0 || n == 0x1680 || (0x2000 ≤ n && n ≤ 0x200A) || n == 0x2028 ||
  n == 0x2029 || n == 0x202F || n == 0x205F || n == 0x3000 || n == 0xFEFF

/-- Drop leading JavaScript whitespace, as the first half of `trim()`. -/
def jsTrimStart (l : List Char) : List Char := l.dropWhile (fun c => jsIsWs c)

/-- Drop trailing JavaScript whitespace, as the second half of `trim()`. -/
def jsTrimEnd (l : List Char) : List Char :=
  (l.reverse.dropWhile (fun c => jsIsWs c)).reverse

/-- JavaScript `String.prototype.trim` on a character list. -/
def jsTrimL (l : List Char) : List Char := jsTrimEnd (jsTrimStart l)

/-- JavaScript `String.prototype.trim`. -/
def jsTrim (s : String) : String := ⟨jsTrimL s.data⟩

/-! ### The tabular parser `parseCSV` (src/index.tsx lines 30-51) -/

/-- A finished cell: the source always pushes `cell.trim()`. -/
def trimCell (cell : List Char) : String := ⟨jsTrimL cell⟩

/-- End of a line: `row.push(cell.trim())` followed by
`if (row.length > 0 || cell !== '') result.push(row)`.  The guard always
holds because the trimmed cell was just pushed onto the row; it is kept
verbatim from the source. -/
def pushRow (acc : List (List String)) (row : List String)
    (cell : List Char) : List (List String) :=
  if 0 < (row ++ [trimCell cell]).length ∨ cell ≠ []
  then acc ++ [row ++ [trimCell cell]] else acc

/-- The character scan of `parseCSV`: the first argument is the `inQuotes`
flag, then the current cell buffer, the current row buffer and the rows
produced so far.  Each equation is one branch of the `for` loop body (in
source order); the two-character quote pattern is where the source
consumes the lookahead character with `i++`.  Inside quotes, `\r\n` is
consumed one character at a time, exactly as the source's default branch
does. -/
def parseAux : Bool → List Char → List String → List (List String) →
    List Char → List (List String)
  | _, cell, row, acc, [] =>
      -- `if (cell || row.length > 0) { row.push(cell.trim()); result.push(row); }`
      if cell ≠ [] ∨ row ≠ [] then acc ++ [row ++ [trimCell cell]] else acc
  | true, cell, row, acc, '"' :: '"' :: cs =>
      parseAux true (cell ++ ['"']) row acc cs
  | q, cell, row, acc, '"' :: cs => parseAux (!q) cell row acc cs
  | true, cell, row, acc, ',' :: cs => parseAux true (cell ++ [',']) row acc cs
  | false, cell, row, acc, ',' :: cs =>
      parseAux false [] (row ++ [trimCell cell]) acc cs
  | true, cell, row, acc, '\n' :: cs => parseAux true (cell ++ ['\n']) row acc cs
  | false, cell, row, acc, '\n' :: cs =>
      parseAux false [] [] (pushRow acc row cell) cs
  | true, cell, row, acc, '\r' :: cs => parseAux true (cell ++ ['\r']) row acc cs
  | false, cell, row, acc, '\r' :: '\n' :: cs =>
      parseAux false [] [] (pushRow acc row cell) cs
  | false, cell, row, acc, '\r' :: cs =>
      parseAux false [] [] (pushRow acc row cell) cs
  | q, cell, row, acc, c :: cs => parseAux q (cell ++ [c]) row acc cs

/-- `parseCSV` (src/index.tsx lines 30-51): run the scan from the empty
state and post-filter rows that are empty or all-empty, mirroring
`result.filter(r => r.length > 0 && r.some(c => c !== ''))`.  The leading
`if (!text) return []` is the empty-string guard. -/
def parseCSV (text : String) : List (List String) :=
  if text = "" then []
  else (parseAux false [] [] [] text.data).filter
    (fun r => decide (0 < r.length) && r.any (fun c => decide (c ≠ "")))

/-! ### The field-descriptor data model (src/index.tsx lines 14-26) -/

/-- A `string | number` value as stored in `sourceValue`, `sourceKeyIdx`
and `optionIndices`.  Numbers that occur in configurations are column
indices, hence naturals. -/
inductive SVal where
  | str (v : String)
  | num (v : Nat)
deriving DecidableEq, Repr

/-- `'key' | 'content'` output mode of the smart-answer resolver. -/
inductive OutputMode where
  | key
  | content
deriving DecidableEq, Repr

/-- `FieldSourceType` (src/index.tsx line 14). -/
inductive FieldSourceType where
  | csv_column
  | constant
  | filename
  | smart_answer
deriving DecidableEq, Repr

/-- `ExportField['answerConfig']` (src/index.tsx lines 21-25). -/
structure AnswerConfig where
  sourceKeyIdx : SVal
  outputMode : OutputMode
  optionIndices : List SVal
deriving DecidableEq, Repr

/-- `ExportField` (src/index.tsx lines 16-26).  `answerConfig` is the
optional sub-object present on smart-answer fields. -/
structure ExportField where
  id : String
  headerName : String
  type : FieldSourceType
  sourceValue : SVal
  answerConfig : Option AnswerConfig
deriving DecidableEq, Repr

/-- Decimal digit characters, `0`-`9`. -/
def isDigitCh (c : Char) : Bool := decide (48 ≤ c.toNat ∧ c.toNat ≤ 57)

/-- Value of a list of decimal digit characters (most significant first). -/
def digitsToNat (l : List Char) : Nat :=
  l.foldl (fun a c => a * 10 + (c.toNat - 48)) 0

/-- Decimal digits of `n`, most significant first, via a fuelled
structural recursion (`fuel > n` always suffices). -/
def natDigitsAux : Nat → Nat → List Char
  | 0, _ => []
  | fuel + 1, n =>
      if n < 10 then [Char.ofNat (48 + n)]
      else natDigitsAux fuel (n / 10) ++ [Char.ofNat (48 + n % 10)]

/-- Decimal representation of a natural number, as JavaScript's
`String(n)` / `JSON.stringify(n)` print it. -/
def natDigits (n : Nat) : List Char := natDigitsAux (n + 1) n

/-- JavaScript `String(v)` on a `string | number` value. -/
def svToString : SVal → String
  | .str v => v
  | .num v => ⟨natDigits v⟩

/-- JavaScript `Number(v)` on the `string | number` values that occur in
configurations: a number is itself, the empty string converts to `0`, a
non-empty all-digit string converts to its decimal value, and anything
else is `NaN` (modelled as `none`). -/
def jsNumberOf : SVal → Option Nat
  | .num v => some v
  | .str v =>
      if v = "" then some 0
      else if v.data.all isDigitCh then some (digitsToNat v.data)
      else none

/-- JavaScript `row[Number(v)] || ''`: an out-of-range index (or `NaN`)
reads `undefined`, and `|| ''` coalesces `undefined` and the empty string
to the empty string. -/
def jsIndex (row : List String) (sv : SVal) : String :=
  match jsNumberOf sv with
  | some k => row.getD k ""
  | none => ""

/-! ### The smart-answer resolver (src/index.tsx lines 53-66) -/

/-- JavaScript `toUpperCase` as a character map.  The model implements
the Unicode simple uppercase mappings for the character ranges a key cell
realistically contains: ASCII `a`-`z`, full-width `ａ`-`ｚ`
(U+FF41..U+FF5A, to full-width `Ａ`-`Ｚ`), micro sign `µ` (to Greek `Μ`),
the Latin-1 letters `à`-`þ` excluding `÷`, `ÿ` (to `Ÿ`), dotless `ı` (to
`I`), long `ſ` (to `S`), final sigma `ς` (to `Σ`), the basic Greek range
`α`-`ω` and the Cyrillic ranges `а`-`я` and `ѐ`-`џ`.  Characters outside
these ranges pass through unchanged in the model; JavaScript additionally
uppercases further scripts and expands a few characters to several
(e.g. `ß` to `SS`), which a character-to-character map cannot represent —
the theorems below assert the uppercasing behaviour only on the modelled
ranges. -/
def jsToUpperChar (c : Char) : Char :=
  if 97 ≤ c.toNat ∧ c.toNat ≤ 122 then Char.ofNat (c.toNat - 32)
  else if 0xFF41 ≤ c.toNat ∧ c.toNat ≤ 0xFF5A then Char.ofNat (c.toNat - 32)
  else if c.toNat = 0xB5 then Char.ofNat 0x39C
  else if (0xE0 ≤ c.toNat ∧ c.toNat ≤ 0xFE) ∧ c.toNat ≠ 0xF7 then
    Char.ofNat (c.toNat - 32)
  else if c.toNat = 0xFF then Char.ofNat 0x178
  else if c.toNat = 0x131 then Char.ofNat 0x49
  else if c.toNat = 0x17F then Char.ofNat 0x53
  else if c.toNat = 0x3C2 then Char.ofNat 0x3A3
  else if 0x3B1 ≤ c.toNat ∧ c.toNat ≤ 0x3C9 then Char.ofNat (c.toNat - 32)
  else if 0x430 ≤ c.toNat ∧ c.toNat ≤ 0x44F then Char.ofNat (c.toNat - 32)
  else if 0x450 ≤ c.toNat ∧ c.toNat ≤ 0x45F then Char.ofNat (c.toNat - 80)
  else c

/-- The `replace(/[Ａ-Ｚ０-９]/g, s => chr(code(s) - 0xFEE0))` step:
full-width capital letters (U+FF21..U+FF3A) and full-width digits
(U+FF10..U+FF19) shift down by `0xFEE0`; all other characters pass
through unchanged. -/
def fwToHalf (c : Char) : Char :=
  if (0xFF21 ≤ c.toNat ∧ c.toNat ≤ 0xFF3A) ∨
     (0xFF10 ≤ c.toNat ∧ c.toNat ≤ 0xFF19) then
    Char.ofNat (c.toNat - 0xFEE0)
  else c

/-- Key normalization (src/index.tsx line 56): uppercase, then shift
full-width letters and digits to half-width.  Both steps act
character-by-character because the regular expression is a single
character class replaced globally. -/
def normalizeKey (s : String) : String :=
  ⟨s.data.map (fun c => fwToHalf (jsToUpperChar c))⟩

/-- Key decoding (src/index.tsx lines 58-60): a single character `A`-`Z`
decodes to its alphabet index via `charCodeAt(0) - 65`; otherwise a single
character `1`-`9` decodes to `parseInt(key) - 1`; otherwise the sentinel
`targetIdx = -1` (modelled as `none`). -/
def decodeKeyPos (key : String) : Option Nat :=
  match key.data with
  | [c] =>
      if 65 ≤ c.toNat ∧ c.toNat ≤ 90 then some (c.toNat - 65)
      else if 49 ≤ c.toNat ∧ c.toNat ≤ 57 then some (c.toNat - 49)
      else none
  | _ => none

/-- The raw key of a row under an answer config:
`String(row[Number(config.sourceKeyIdx)] || '').trim()`. -/
def rawKeyOf (row : List String) (c : AnswerConfig) : String :=
  jsTrim (jsIndex row c.sourceKeyIdx)

/-- The normalized key of a row under an answer config. -/
def keyOf (row : List String) (c : AnswerConfig) : String :=
  normalizeKey (rawKeyOf row c)

/-- `processSmartAnswer` (src/index.tsx lines 53-66). -/
def processSmartAnswer (row : List String) (config : Option AnswerConfig) :
    String :=
  match config with
  | none => ""
  | some c =>
      if c.sourceKeyIdx = .str "" then ""
      else
        let rawKey := rawKeyOf row c
        let key := normalizeKey rawKey
        if c.outputMode = .key then key
        else
          match decodeKeyPos key with
          | some t =>
              if t < c.optionIndices.length then
                let colIdx := c.optionIndices.getD t (.str "")
                if colIdx ≠ .str "" then jsIndex row colIdx
                else rawKey
              else rawKey
          | none => rawKey

/-! ### The CSV emitter `generateCSV` (src/index.tsx lines 68-83) -/

/-- List concat-map, used for character-level string rewriting. -/
def concatMapL (f : α → List β) : List α → List β
  | [] => []
  | a :: l => f a ++ concatMapL f l

/-- `val.replace(/"/g, '""')`: double every double quote. -/
def escQuote (l : List Char) : List Char :=
  concatMapL (fun c => if c = '"' then ['"', '"'] else [c]) l

/-- One emitted data cell: `` `"${val.replace(/"/g, '""')}"` ``. -/
def quoteCell (val : String) : String :=
  ⟨'"' :: (escQuote val.data ++ ['"'])⟩

/-- The per-field evaluation inside `generateCSV` (src/index.tsx lines
72-78): the four-way dispatch on `field.type`. -/
def evalField (filename : String) (row : List String) (f : ExportField) :
    String :=
  match f.type with
  | .filename => filename
  | .constant => svToString f.sourceValue
  | .csv_column => jsIndex row f.sourceValue
  | .smart_answer => processSmartAnswer row f.answerConfig

/-- `generateCSV` (src/index.tsx lines 68-83): the unquoted header line
followed by one all-quoted data line per source row after row 0
(`sourceData.slice(1)`), lines joined with `\n`. -/
def generateCSV (config : List ExportField) (sourceData : List (List String))
    (filename : String) : String :=
  let headers := config.map (fun f => f.headerName)
  let headerRow := String.intercalate "," headers
  let dataRows := (sourceData.drop 1).map (fun row =>
    String.intercalate "," (config.map (fun f =>
      quoteCell (evalField filename row f))))
  String.intercalate "\n" (headerRow :: dataRows)

/-! ### The configuration codec (src/index.tsx lines 181-197)

`exportCurrentConfig` serializes the configuration with
`JSON.stringify(exportConfig, null, 2)` and `importConfig` deserializes
with `JSON.parse`, applying whatever value results with no validation.
`JSON.stringify` / `JSON.parse` are platform built-ins; they are modelled
here for the JSON values that configurations produce: objects with
string-keyed fields in insertion order, arrays, strings (with the
standard escapes), non-negative integers, booleans and null. -/

mutual
/-- A JavaScript runtime value as `JSON.parse` produces it.  A plain
number token `0 | [1-9][0-9]*` is kept as its exact integer value in
`jnum` (JavaScript stores it in an IEEE double, which agrees with the
integer below `2^53`); a number token carrying a minus sign, a fractional
part or an exponent part is kept as its lexeme in `jnumX`, since its
JavaScript value is an IEEE double whose arithmetic the embedding does
not evaluate.  The serializer only ever produces `jnum` numbers. -/
inductive Json where
  | jnull
  | jbool (b : Bool)
  | jnum (n : Nat)
  | jnumX (lexeme : String)
  | jstr (s : String)
  | jarr (items : JsonList)
  | jobj (fields : JsonFields)
deriving DecidableEq, Repr

/-- The element list of a JSON array. -/
inductive JsonList where
  | nil
  | cons (hd : Json) (tl : JsonList)
deriving DecidableEq, Repr

/-- The key-value field list of a JSON object, in insertion order. -/
inductive JsonFields where
  | nil
  | cons (k : String) (v : Json) (tl : JsonFields)
deriving DecidableEq, Repr
end

/-- Hexadecimal digit characters as `JSON.stringify` prints them
(lowercase). -/
def hexCh : Nat → Char
  | 0 => '0' | 1 => '1' | 2 => '2' | 3 => '3' | 4 => '4' | 5 => '5'
  | 6 => '6' | 7 => '7' | 8 => '8' | 9 => '9' | 10 => 'a' | 11 => 'b'
  | 12 => 'c' | 13 => 'd' | 14 => 'e' | _ => 'f'

/-- `JSON.stringify`'s escaping of one string character: `"` and `\` get a
backslash, the named control escapes are `\b \t \n \f \r`, any other
control character becomes `\u00xx`, and everything else is printed
verbatim. -/
def escCharJ (c : Char) : List Char :=
  if c = '"' then ['\\', '"']
  else if c = '\\' then ['\\', '\\']
  else if c = '\x08' then ['\\', 'b']
  else if c = '\t' then ['\\', 't']
  else if c = '\n' then ['\\', 'n']
  else if c = '\x0c' then ['\\', 'f']
  else if c = '\r' then ['\\', 'r']
  else if c.toNat < 0x20 then
    ['\\', 'u', '0', '0', hexCh (c.toNat / 16), hexCh (c.toNat % 16)]
  else [c]

/-- A JSON string literal: quote, escaped body, quote. -/
def ppStrL (s : String) : List Char :=
  '"' :: (concatMapL escCharJ s.data ++ ['"'])

/-- Indentation: `n` spaces. -/
def spacesL (n : Nat) : List Char := List.replicate n ' '

mutual
/-- `JSON.stringify(v, null, 2)` at indentation level `ind`: atoms print
bare; non-empty arrays and objects open their bracket, put each entry on
its own line indented two further spaces, and close the bracket at the
current indentation. -/
def ppJson (ind : Nat) : Json → List Char
  | .jnull => ['n', 'u', 'l', 'l']
  | .jbool b => if b then ['t', 'r', 'u', 'e'] else ['f', 'a', 'l', 's', 'e']
  | .jnum n => natDigits n
  | .jnumX lex => lex.data
  | .jstr s => ppStrL s
  | .jarr .nil => ['[', ']']
  | .jarr (.cons h t) =>
      '[' :: '\n' ::
        (ppItems (ind + 2) (.cons h t) ++ ('\n' :: (spacesL ind ++ [']'])))
  | .jobj .nil => ['\x7b', '\x7d']
  | .jobj (.cons k v t) =>
      '\x7b' :: '\n' ::
        (ppFields (ind + 2) (.cons k v t) ++ ('\n' :: (spacesL ind ++ ['\x7d'])))

/-- Array entries: each on its own line at indentation `ind`, separated by
`,\n`. -/
def ppItems (ind : Nat) : JsonList → List Char
  | .nil => []
  | .cons h .nil => spacesL ind ++ ppJson ind h
  | .cons h (.cons h2 t) =>
      spacesL ind ++ ppJson ind h ++
        (',' :: '\n' :: ppItems ind (.cons h2 t))

/-- Object entries: `"key": value` on its own line at indentation `ind`,
separated by `,\n`. -/
def ppFields (ind : Nat) : JsonFields → List Char
  | .nil => []
  | .cons k v .nil => spacesL ind ++ ppStrL k ++ (':' :: ' ' :: ppJson ind v)
  | .cons k v (.cons k2 v2 t) =>
      spacesL ind ++ ppStrL k ++ (':' :: ' ' :: ppJson ind v) ++
        (',' :: '\n' :: ppFields ind (.cons k2 v2 t))
end

/-- The JSON whitespace characters (space, tab, line feed, carriage
return). -/
def jsonWsCh (c : Char) : Bool :=
  c == ' ' || c == '\t' || c == '\n' || c == '\r'

/-- Skip JSON whitespace. -/
def skipWs : List Char → List Char
  | [] => []
  | c :: cs => if jsonWsCh c then skipWs cs else c :: cs

/-- Value of a hexadecimal digit character, accepting both cases. -/
def hexVal (c : Char) : Option Nat :=
  if 48 ≤ c.toNat ∧ c.toNat ≤ 57 then some (c.toNat - 48)
  else if 97 ≤ c.toNat ∧ c.toNat ≤ 102 then some (c.toNat - 87)
  else if 65 ≤ c.toNat ∧ c.toNat ≤ 70 then some (c.toNat - 55)
  else none

/-- Parse the body of a JSON string literal after the opening quote,
accumulating decoded characters in `acc`; handles the standard escapes
and `\uXXXX`, and rejects raw control characters. -/
def parseStrBody : List Char → List Char → Option (String × List Char)
  | [], _ => none
  | c :: r, acc =>
      if c = '"' then some (⟨acc⟩, r)
      else if c = '\\' then
        match r with
        | [] => none
        | e :: r2 =>
            if e = '"' then parseStrBody r2 (acc ++ ['"'])
            else if e = '\\' then parseStrBody r2 (acc ++ ['\\'])
            else if e = '/' then parseStrBody r2 (acc ++ ['/'])
            else if e = 'b' then parseStrBody r2 (acc ++ ['\x08'])
            else if e = 'f' then parseStrBody r2 (acc ++ ['\x0c'])
            else if e = 'n' then parseStrBody r2 (acc ++ ['\n'])
            else if e = 'r' then parseStrBody r2 (acc ++ ['\r'])
            else if e = 't' then parseStrBody r2 (acc ++ ['\t'])
            else if e = 'u' then
              match r2 with
              | h1 :: h2 :: h3 :: h4 :: r3 =>
                  match hexVal h1, hexVal h2, hexVal h3, hexVal h4 with
                  | some a, some b, some c2, some d =>
                      parseStrBody r3
                        (acc ++ [Char.ofNat (((a * 16 + b) * 16 + c2) * 16 + d)])
                  | _, _, _, _ => none
              | _ => none
            else none
      else if c.toNat < 0x20 then none
      else parseStrBody r (acc ++ [c])

/-- Parse one JSON number token, with exactly the grammar of `JSON.parse`:
`-? (0 | [1-9][0-9]*) (. [0-9]+)? ([eE] [+-]? [0-9]+)?`.  In particular a
leading zero is never followed by further integer digits (so `042` leaves
`42` unconsumed and the caller's trailing-input check then rejects it, as
`JSON.parse("042")` throws), a minus sign must be followed by a digit, and
a decimal point or exponent marker must be followed by at least one digit.
A plain token (no sign, fraction or exponent) yields its exact integer
value as `jnum`; any other token is kept whole as `jnumX`. -/
def parseNum (cs : List Char) : Option (Json × List Char) :=
  let cs1 := if cs.head? = some '-' then cs.tail else cs
  match cs1.head? with
  | none => none
  | some d =>
      if isDigitCh d then
        let cs2 := if d = '0' then cs1.tail else cs1.dropWhile isDigitCh
        if cs2.head? = some '.' ∧ cs2.tail.takeWhile isDigitCh = [] then none
        else
          let cs3 := if cs2.head? = some '.' then
            cs2.tail.dropWhile isDigitCh else cs2
          let hasExp := cs3.head? = some 'e' ∨ cs3.head? = some 'E'
          let cs4 := if hasExp then cs3.tail else cs3
          let cs5 := if hasExp ∧ (cs4.head? = some '+' ∨ cs4.head? = some '-')
            then cs4.tail else cs4
          if hasExp ∧ cs5.takeWhile isDigitCh = [] then none
          else
            let cs6 := if hasExp then cs5.dropWhile isDigitCh else cs5
            if cs.head? = some '-' ∨ cs2.head? = some '.' ∨ hasExp then
              some (.jnumX ⟨cs.take (cs.length - cs6.length)⟩, cs6)
            else
              some (.jnum (digitsToNat (if d = '0' then ['0']
                else cs1.takeWhile isDigitCh)), cs6)
      else none

mutual
/-- Parse one JSON value (fuelled recursion; any fuel larger than the
nesting structure of the value suffices, and the top-level entry point
supplies fuel larger than the input length). -/
def parseVal : Nat → List Char → Option (Json × List Char)
  | 0, _ => none
  | n + 1, cs =>
      match skipWs cs with
      | [] => none
      | c :: r =>
          if c = '-' ∨ isDigitCh c = true then parseNum (c :: r)
          else if c = '"' then
            match parseStrBody r [] with
            | some (s, r2) => some (.jstr s, r2)
            | none => none
          else if c = '[' then
            (if (skipWs r).head? = some ']' then some (.jarr .nil, (skipWs r).tail)
             else match parseItems n r with
                  | some (vs, r2) => some (.jarr vs, r2)
                  | none => none)
          else if c = '\x7b' then
            (if (skipWs r).head? = some '\x7d' then
               some (.jobj .nil, (skipWs r).tail)
             else match parseFields n r with
                  | some (fs, r2) => some (.jobj fs, r2)
                  | none => none)
          else if c = 'n' then
            (match r with
             | 'u' :: 'l' :: 'l' :: r2 => some (.jnull, r2)
             | _ => none)
          else if c = 't' then
            (match r with
             | 'r' :: 'u' :: 'e' :: r2 => some (.jbool true, r2)
             | _ => none)
          else if c = 'f' then
            (match r with
             | 'a' :: 'l' :: 's' :: 'e' :: r2 => some (.jbool false, r2)
             | _ => none)
          else none

/-- Parse the entries of a non-empty JSON array after the opening
bracket, up to and including the closing bracket. -/
def parseItems : Nat → List Char → Option (JsonList × List Char)
  | 0, _ => none
  | n + 1, cs =>
      match parseVal n cs with
      | none => none
      | some (v, r) =>
          let r1 := skipWs r
          if r1.head? = some ',' then
            match parseItems n r1.tail with
            | some (vs, r3) => some (.cons v vs, r3)
            | none => none
          else if r1.head? = some ']' then some (.cons v .nil, r1.tail)
          else none

/-- Parse the entries of a non-empty JSON object after the opening brace,
up to and including the closing brace. -/
def parseFields : Nat → List Char → Option (JsonFields × List Char)
  | 0, _ => none
  | n + 1, cs =>
      match skipWs cs with
      | '"' :: r =>
          (match parseStrBody r [] with
           | none => none
           | some (k, r2) =>
               let r3 := skipWs r2
               if r3.head? = some ':' then
                 match parseVal n r3.tail with
                 | none => none
                 | some (v, r4) =>
                     let r5 := skipWs r4
                     if r5.head? = some ',' then
                       match parseFields n r5.tail with
                       | some (fs, r6) => some (.cons k v fs, r6)
                       | none => none
                     else if r5.head? = some '\x7d' then
                       some (.cons k v .nil, r5.tail)
                     else none
               else none)
      | _ => none
end

/-- `JSON.parse`: parse one value, allowing surrounding whitespace and
requiring the whole input to be consumed.  Value-level modelling notes:
a number token outside the plain non-negative integer form keeps its
lexeme (its JavaScript value is an IEEE double, which the embedding does
not evaluate); a `\uXXXX` escape denotes the Unicode scalar value `XXXX`
(JavaScript additionally combines surrogate pairs); object fields are
kept in insertion order (JavaScript keeps the last binding of a repeated
key).  The success/failure boundary follows `JSON.parse` exactly. -/
def jsonParse (text : String) : Option Json :=
  match parseVal (text.data.length + 1) text.data with
  | some (j, rest) => if skipWs rest = [] then some j else none
  | none => none

/-- The JSON value of a `string | number` field value. -/
def svToJson : SVal → Json
  | .str v => .jstr v
  | .num v => .jnum v

/-- The JSON value of an `optionIndices` array. -/
def svListToJson : List SVal → JsonList
  | [] => .nil
  | v :: l => .cons (svToJson v) (svListToJson l)

/-- The JSON value of an `outputMode`. -/
def outputModeToJson : OutputMode → Json
  | .key => .jstr "key"
  | .content => .jstr "content"

/-- The JSON value of a `FieldSourceType` tag. -/
def typeToJson : FieldSourceType → Json
  | .csv_column => .jstr "csv_column"
  | .constant => .jstr "constant"
  | .filename => .jstr "filename"
  | .smart_answer => .jstr "smart_answer"

/-- The JSON value of an `answerConfig` object, keys in the insertion
order used everywhere in the source. -/
def answerConfigToJson (a : AnswerConfig) : Json :=
  .jobj (.cons "sourceKeyIdx" (svToJson a.sourceKeyIdx)
        (.cons "outputMode" (outputModeToJson a.outputMode)
        (.cons "optionIndices" (.jarr (svListToJson a.optionIndices)) .nil)))

/-- The JSON value of one `ExportField`; the `answerConfig` key is present
exactly when the field carries an answer config (the source spreads
`...(type === 'smart_answer' ? { answerConfig: ... } : {})`). -/
def fieldToJson (f : ExportField) : Json :=
  .jobj (.cons "id" (.jstr f.id)
        (.cons "headerName" (.jstr f.headerName)
        (.cons "type" (typeToJson f.type)
        (.cons "sourceValue" (svToJson f.sourceValue)
        (match f.answerConfig with
         | none => .nil
         | some a => .cons "answerConfig" (answerConfigToJson a) .nil)))))

/-- The JSON value of a whole configuration: the array of its field
descriptors in order. -/
def configToJson : List ExportField → JsonList
  | [] => .nil
  | f :: l => .cons (fieldToJson f) (configToJson l)

/-- `exportCurrentConfig` (src/index.tsx lines 181-184):
`JSON.stringify(exportConfig, null, 2)`. -/
def serializeConfig (config : List ExportField) : String :=
  ⟨ppJson 0 (.jarr (configToJson config))⟩

/-- `importConfig` (src/index.tsx lines 186-197) as a state transition on
the configuration value: `JSON.parse` the text and apply the result with
no validation; on a parse error the alert fires and the previous
configuration is retained. -/
def importConfigModel (prev : Json) (text : String) : Json :=
  match jsonParse text with
  | some j => j
  | none => prev

/-- Boundary condition after a printed number token: the head of the
remaining input (if any) is not a decimal digit, not a decimal point and
not an exponent marker, so the token ends exactly there. -/
def numBoundary (rest : List Char) : Prop :=
  ∀ d, rest.head? = some d →
    isDigitCh d = false ∧ d ≠ '.' ∧ d ≠ 'e' ∧ d ≠ 'E'

mutual
/-- The value contains only plain `jnum` numbers, as every value the
serializer produces does. -/
def plainJ : Json → Bool
  | .jnumX _ => false
  | .jarr l => plainL l
  | .jobj f => plainF f
  | _ => true

/-- All elements contain only plain `jnum` numbers. -/
def plainL : JsonList → Bool
  | .nil => true
  | .cons h t => plainJ h && plainL t

/-- All field values contain only plain `jnum` numbers. -/
def plainF : JsonFields → Bool
  | .nil => true
  | .cons _ v t => plainJ v && plainF t
end

mutual
/-- Fuel sufficient for `parseVal` on the printed form of a value. -/
def needV : Json → Nat
  | .jnull => 1
  | .jbool _ => 1
  | .jnum _ => 1
  | .jnumX _ => 1
  | .jstr _ => 1
  | .jarr l => needL l + 1
  | .jobj f => needF f + 1

/-- Fuel sufficient for `parseItems` on the printed entries of an array. -/
def needL : JsonList → Nat
  | .nil => 1
  | .cons h t => 1 + max (needV h) (needL t)

/-- Fuel sufficient for `parseFields` on the printed entries of an
object. -/
def needF : JsonFields → Nat
  | .nil => 1
  | .cons _ v t => 1 + max (needV v) (needF t)
end

/-! ## Lemmas about trimming -/

theorem head?_dropWhile_false (p : Char → Bool) :
    ∀ (l : List Char) (a : Char), (l.dropWhile p).head? = some a → p a = false := by
  intro l
  induction l with
  | nil => intro a h; simp [List.dropWhile] at h
  | cons c cs ih =>
      intro a h
      by_cases hc : p c
      · rw [show List.dropWhile p (c :: cs) = List.dropWhile p cs by
          simp [List.dropWhile, hc]] at h
        exact ih a h
      · rw [show List.dropWhile p (c :: cs) = c :: cs by
          simp [List.dropWhile, hc]] at h
        simp at h
        subst h
        simpa using hc

theorem dropWhile_eq_self_of_head (p : Char → Bool) (l : List Char)
    (h : ∀ a, l.head? = some a → p a = false) : l.dropWhile p = l := by
  cases l with
  | nil => rfl
  | cons c cs =>
      have hc := h c rfl
      simp [List.dropWhile, hc]

theorem getLast?_dropWhile (p : Char → Bool) :
    ∀ l : List Char, l.dropWhile p ≠ [] →
      (l.dropWhile p).getLast? = l.getLast? := by
  intro l
  induction l with
  | nil => intro h; simp [List.dropWhile] at h
  | cons c cs ih =>
      intro h
      by_cases hc : p c
      · have hd : List.dropWhile p (c :: cs) = List.dropWhile p cs := by
          simp [List.dropWhile, hc]
        rw [hd] at h ⊢
        have hcs : cs ≠ [] := by
          intro h0; subst h0; simp [List.dropWhile] at h
        rw [ih h]
        cases cs with
        | nil => exact absurd rfl hcs
        | cons d ds => simp [List.getLast?]
      · rw [show List.dropWhile p (c :: cs) = c :: cs by
          simp [List.dropWhile, hc]]

theorem jsTrimL_head_not_ws (l : List Char) (a : Char)
    (h : (jsTrimL l).head? = some a) : jsIsWs a = false := by
  unfold jsTrimL jsTrimEnd jsTrimStart at h
  rw [List.head?_reverse] at h
  have hne : (l.dropWhile fun c => jsIsWs c).reverse.dropWhile
      (fun c => jsIsWs c) ≠ [] := by
    intro h0; rw [h0] at h; simp at h
  rw [getLast?_dropWhile _ _ hne, List.getLast?_reverse] at h
  exact head?_dropWhile_false _ _ _ h

theorem jsTrimL_getLast_not_ws (l : List Char) (a : Char)
    (h : (jsTrimL l).getLast? = some a) : jsIsWs a = false := by
  unfold jsTrimL jsTrimEnd jsTrimStart at h
  rw [List.getLast?_reverse] at h
  exact head?_dropWhile_false _ _ _ h

theorem jsTrimL_idem (l : List Char) : jsTrimL (jsTrimL l) = jsTrimL l := by
  have h1 : jsTrimStart (jsTrimL l) = jsTrimL l :=
    dropWhile_eq_self_of_head _ _ (fun a ha => jsTrimL_head_not_ws l a ha)
  have h2 : (jsTrimL l).reverse.dropWhile (fun c => jsIsWs c) =
      (jsTrimL l).reverse :=
    dropWhile_eq_self_of_head _ _ (fun a ha => by
      rw [List.head?_reverse] at ha
      exact jsTrimL_getLast_not_ws l a ha)
  show jsTrimEnd (jsTrimStart (jsTrimL l)) = jsTrimL l
  rw [h1]
  unfold jsTrimEnd
  rw [h2, List.reverse_reverse]

theorem jsTrim_trimCell (l : List Char) : jsTrim (trimCell l) = trimCell l := by
  simp [jsTrim, trimCell, jsTrimL_idem]

theorem jsTrim_eq_self_iff_data (s : String) (h : jsTrim s = s) :
    jsTrimL s.data = s.data := congrArg String.data h

/-! ## Step lemmas for the CSV scan -/

theorem pushRow_eq (acc : List (List String)) (row : List String)
    (cell : List Char) :
    pushRow acc row cell = acc ++ [row ++ [trimCell cell]] := by
  simp [pushRow]

theorem parseAux_nil (q : Bool) (cell : List Char) (row : List String)
    (acc : List (List String)) :
    parseAux q cell row acc [] =
      if cell ≠ [] ∨ row ≠ [] then acc ++ [row ++ [trimCell cell]] else acc := by
  cases q <;> rfl

theorem parseAux_quote_pair (cell : List Char) (row : List String)
    (acc : List (List String)) (cs : List Char) :
    parseAux true cell row acc ('"' :: '"' :: cs) =
      parseAux true (cell ++ ['"']) row acc cs := rfl

theorem parseAux_quote_open (cell : List Char) (row : List String)
    (acc : List (List String)) (cs : List Char) :
    parseAux false cell row acc ('"' :: cs) = parseAux true cell row acc cs :=
  rfl

theorem parseAux_quote_close (cell : List Char) (row : List String)
    (acc : List (List String)) (c2 : Char) (cs : List Char) (h : c2 ≠ '"') :
    parseAux true cell row acc ('"' :: c2 :: cs) =
      parseAux false cell row acc (c2 :: cs) := by
  rw [parseAux.eq_def]
  split <;> first | rfl | aesop

theorem parseAux_quote_close_nil (cell : List Char) (row : List String)
    (acc : List (List String)) :
    parseAux true cell row acc ['"'] = parseAux false cell row acc [] := rfl

theorem parseAux_comma_t (cell : List Char) (row : List String)
    (acc : List (List String)) (cs : List Char) :
    parseAux true cell row acc (',' :: cs) =
      parseAux true (cell ++ [',']) row acc cs := rfl

theorem parseAux_comma_f (cell : List Char) (row : List String)
    (acc : List (List String)) (cs : List Char) :
    parseAux false cell row acc (',' :: cs) =
      parseAux false [] (row ++ [trimCell cell]) acc cs := rfl

theorem parseAux_lf_t (cell : List Char) (row : List String)
    (acc : List (List String)) (cs : List Char) :
    parseAux true cell row acc ('\n' :: cs) =
      parseAux true (cell ++ ['\n']) row acc cs := rfl

theorem parseAux_lf_f (cell : List Char) (row : List String)
    (acc : List (List String)) (cs : List Char) :
    parseAux false cell row acc ('\n' :: cs) =
      parseAux false [] [] (pushRow acc row cell) cs := rfl

theorem parseAux_cr_t (cell : List Char) (row : List String)
    (acc : List (List String)) (cs : List Char) :
    parseAux true cell row acc ('\r' :: cs) =
      parseAux true (cell ++ ['\r']) row acc cs := rfl

theorem parseAux_crlf_f (cell : List Char) (row : List String)
    (acc : List (List String)) (cs : List Char) :
    parseAux false cell row acc ('\r' :: '\n' :: cs) =
      parseAux false [] [] (pushRow acc row cell) cs := rfl

theorem parseAux_cr_f (cell : List Char) (row : List String)
    (acc : List (List String)) (c2 : Char) (cs : List Char) (h : c2 ≠ '\n') :
    parseAux false cell row acc ('\r' :: c2 :: cs) =
      parseAux false [] [] (pushRow acc row cell) (c2 :: cs) := by
  rw [parseAux.eq_def]
  split <;> first | rfl | aesop

theorem parseAux_cr_f_nil (cell : List Char) (row : List String)
    (acc : List (List String)) :
    parseAux false cell row acc ['\r'] =
      parseAux false [] [] (pushRow acc row cell) [] := rfl

theorem parseAux_other (q : Bool) (cell : List Char) (row : List String)
    (acc : List (List String)) (c : Char) (cs : List Char)
    (h1 : c ≠ '"') (h2 : c ≠ ',') (h3 : c ≠ '\n') (h4 : c ≠ '\r') :
    parseAux q cell row acc (c :: cs) = parseAux q (cell ++ [c]) row acc cs := by
  rw [parseAux.eq_def]
  cases q <;> split <;> first | rfl | aesop

theorem parseAux_true_step (cell : List Char) (row : List String)
    (acc : List (List String)) (c : Char) (cs : List Char) (h1 : c ≠ '"') :
    parseAux true cell row acc (c :: cs) =
      parseAux true (cell ++ [c]) row acc cs := by
  by_cases h2 : c = ','
  · subst h2; exact parseAux_comma_t ..
  by_cases h3 : c = '\n'
  · subst h3; exact parseAux_lf_t ..
  by_cases h4 : c = '\r'
  · subst h4; exact parseAux_cr_t ..
  exact parseAux_other _ _ _ _ _ _ h1 h2 h3 h4

/-! ## Every parsed cell is trimmed -/

theorem trimmed_row_append (row : List String) (cell : List Char)
    (hrow : ∀ c ∈ row, jsTrim c = c) :
    ∀ c ∈ row ++ [trimCell cell], jsTrim c = c := by
  intro c hc
  rcases List.mem_append.mp hc with h | h
  · exact hrow c h
  · simp at h; subst h; exact jsTrim_trimCell cell

theorem trimmed_rows_append (acc : List (List String)) (row : List String)
    (cell : List Char) (hacc : ∀ r ∈ acc, ∀ c ∈ r, jsTrim c = c)
    (hrow : ∀ c ∈ row, jsTrim c = c) :
    ∀ r ∈ acc ++ [row ++ [trimCell cell]], ∀ c ∈ r, jsTrim c = c := by
  intro r hr
  rcases List.mem_append.mp hr with h | h
  · exact hacc r h
  · simp at h; subst h
    exact trimmed_row_append row cell hrow

theorem parseAux_nil_trimmed (q : Bool) (cell : List Char) (row : List String)
    (acc : List (List String)) (hacc : ∀ r ∈ acc, ∀ c ∈ r, jsTrim c = c)
    (hrow : ∀ c ∈ row, jsTrim c = c) :
    ∀ r ∈ parseAux q cell row acc [], ∀ c ∈ r, jsTrim c = c := by
  rw [parseAux_nil]
  split
  · exact trimmed_rows_append acc row cell hacc hrow
  · exact hacc

theorem parseAux_cells_trimmed :
    ∀ (n : Nat) (input : List Char), input.length ≤ n →
    ∀ (q : Bool) (cell : List Char) (row : List String)
      (acc : List (List String)),
      (∀ r ∈ acc, ∀ c ∈ r, jsTrim c = c) →
      (∀ c ∈ row, jsTrim c = c) →
      ∀ r ∈ parseAux q cell row acc input, ∀ c ∈ r, jsTrim c = c := by
  intro n
  induction n with
  | zero =>
      intro input hlen q cell row acc hacc hrow
      have h0 : input = [] := List.length_eq_zero.mp (Nat.le_zero.mp hlen)
      subst h0
      exact parseAux_nil_trimmed q cell row acc hacc hrow
  | succ n ih =>
      intro input hlen q cell row acc hacc hrow
      cases input with
      | nil => exact parseAux_nil_trimmed q cell row acc hacc hrow
      | cons c cs =>
          have hlen' : cs.length ≤ n := by simp at hlen; omega
          by_cases hq : c = '"'
          · subst hq
            cases q with
            | false =>
                rw [parseAux_quote_open]
                exact ih cs hlen' true cell row acc hacc hrow
            | true =>
                cases cs with
                | nil =>
                    rw [parseAux_quote_close_nil]
                    exact parseAux_nil_trimmed false cell row acc hacc hrow
                | cons c2 cs2 =>
                    by_cases h2 : c2 = '"'
                    · subst h2
                      rw [parseAux_quote_pair]
                      refine ih cs2 (by simp at hlen'; omega) true
                        (cell ++ ['"']) row acc hacc hrow
                    · rw [parseAux_quote_close _ _ _ _ _ h2]
                      exact ih (c2 :: cs2) hlen' false cell row acc hacc hrow
          by_cases hcm : c = ','
          · subst hcm
            cases q with
            | true =>
                rw [parseAux_comma_t]
                exact ih cs hlen' true (cell ++ [',']) row acc hacc hrow
            | false =>
                rw [parseAux_comma_f]
                exact ih cs hlen' false [] (row ++ [trimCell cell]) acc hacc
                  (trimmed_row_append row cell hrow)
          by_cases hn : c = '\n'
          · subst hn
            cases q with
            | true =>
                rw [parseAux_lf_t]
                exact ih cs hlen' true (cell ++ ['\n']) row acc hacc hrow
            | false =>
                rw [parseAux_lf_f, pushRow_eq]
                exact ih cs hlen' false [] []
                  (acc ++ [row ++ [trimCell cell]])
                  (trimmed_rows_append acc row cell hacc hrow) (by simp)
          by_cases hcr : c = '\r'
          · subst hcr
            cases q with
            | true =>
                rw [parseAux_cr_t]
                exact ih cs hlen' true (cell ++ ['\r']) row acc hacc hrow
            | false =>
                cases cs with
                | nil =>
                    rw [parseAux_cr_f_nil, pushRow_eq]
                    exact parseAux_nil_trimmed false [] []
                      (acc ++ [row ++ [trimCell cell]])
                      (trimmed_rows_append acc row cell hacc hrow) (by simp)
                | cons c2 cs2 =>
                    by_cases h2 : c2 = '\n'
                    · subst h2
                      rw [parseAux_crlf_f, pushRow_eq]
                      refine ih cs2 (by simp at hlen'; omega) false [] []
                        (acc ++ [row ++ [trimCell cell]])
                        (trimmed_rows_append acc row cell hacc hrow) (by simp)
                    · rw [parseAux_cr_f _ _ _ _ _ h2, pushRow_eq]
                      exact ih (c2 :: cs2) hlen' false [] []
                        (acc ++ [row ++ [trimCell cell]])
                        (trimmed_rows_append acc row cell hacc hrow) (by simp)
          rw [parseAux_other _ _ _ _ _ _ hq hcm hn hcr]
          exact ih cs hlen' q (cell ++ [c]) row acc hacc hrow

theorem parseCSV_cells_trimmed (text : String) :
    ∀ r ∈ parseCSV text, ∀ c ∈ r, jsTrim c = c := by
  intro r hr c hc
  unfold parseCSV at hr
  split at hr
  · simp at hr
  · exact parseAux_cells_trimmed text.data.length text.data le_rfl false [] [] []
      (by simp) (by simp) r (List.mem_filter.mp hr).1 c hc

theorem parseCSV_row_pred (text : String) (r : List String)
    (hr : r ∈ parseCSV text) : 0 < r.length ∧ ∃ c ∈ r, c ≠ "" := by
  unfold parseCSV at hr
  split at hr
  · simp at hr
  · have h := (List.mem_filter.mp hr).2
    simp at h
    exact ⟨h.1, h.2⟩

/-! ## The quoted-cell round trip -/

theorem parseAux_quoted_body :
    ∀ (cs cell : List Char) (row : List String) (acc : List (List String)),
      parseAux true cell row acc (escQuote cs ++ ['"']) =
        parseAux false (cell ++ cs) row acc [] := by
  intro cs
  induction cs with
  | nil =>
      intro cell row acc
      show parseAux true cell row acc ['"'] = _
      rw [parseAux_quote_close_nil]
      simp
  | cons c cs ih =>
      intro cell row acc
      by_cases hc : c = '"'
      · subst hc
        have he : escQuote ('"' :: cs) ++ ['"'] =
            '"' :: '"' :: (escQuote cs ++ ['"']) := by
          simp [escQuote, concatMapL]
        rw [he, parseAux_quote_pair, ih]
        simp
      · have he : escQuote (c :: cs) ++ ['"'] = c :: (escQuote cs ++ ['"']) := by
          simp [escQuote, concatMapL, hc]
        rw [he, parseAux_true_step _ _ _ _ _ hc, ih]
        simp

theorem parseCSV_quoteCell (s : String) :
    parseCSV (quoteCell s) =
      if jsTrim s ≠ "" then [[jsTrim s]] else [] := by
  have hne : ¬ quoteCell s = "" := by
    intro h0
    have h1 : (quoteCell s).data = ("" : String).data := congrArg String.data h0
    simp [quoteCell] at h1
  have hdata : (quoteCell s).data = '"' :: (escQuote s.data ++ ['"']) := rfl
  have hrun : parseAux false [] [] [] (quoteCell s).data =
      if s.data ≠ [] ∨ ([] : List String) ≠ [] then [[trimCell s.data]]
      else [] := by
    rw [hdata, parseAux_quote_open, parseAux_quoted_body, List.nil_append,
      parseAux_nil]
    split <;> simp_all
  unfold parseCSV
  rw [if_neg hne, hrun]
  by_cases hd : s.data = []
  · have hs : s = "" := String.ext hd
    subst hs
    simp [jsTrim, jsTrimL, jsTrimStart, jsTrimEnd, List.dropWhile]
  · rw [if_pos (by simp [hd])]
    have hcell : trimCell s.data = jsTrim s := rfl
    rw [hcell]
    by_cases ht : jsTrim s = ""
    · rw [if_neg (by simp [ht])]
      simp [List.filter, ht]
    · rw [if_pos ht]
      simp [List.filter, ht]

/-- Claim C4 (corrected), counterexample to the claim as stated: the
string `a,"b"` followed by a newline contains a comma, a quote and a
newline, yet parsing the emitter's single-cell quoting of it returns the
trimmed string `a,"b"`, not the original string, because every parsed
cell is trimmed. -/
theorem c4_counterexample :
    parseCSV (quoteCell "a,\"b\"\n") = [["a,\"b\""]] ∧
    ("a,\"b\"" : String) ≠ "a,\"b\"\n" := by
  constructor
  · decide
  · decide

/-- Claim C4 (corrected, amended): parsing the emitter's single-cell
quoting of `s` yields the single row whose single cell is `jsTrim s`
whenever that trim is non-empty — hence exactly `s` for any non-empty `s`
that neither starts nor ends with whitespace — and yields no rows at all
when `s` trims to the empty string. -/
theorem c4_thm (s : String) :
    (jsTrim s ≠ "" → parseCSV (quoteCell s) = [[jsTrim s]]) ∧
    (jsTrim s = "" → parseCSV (quoteCell s) = []) := by
  constructor
  · intro h
    rw [parseCSV_quoteCell, if_pos h]
  · intro h
    rw [parseCSV_quoteCell, if_neg (by simp [h])]

/-- Witness for C4: a concrete string containing a comma, a quote and a
newline that neither starts nor ends with whitespace round-trips
exactly. -/
theorem c4_witness :
    jsTrim "a,\"\nb" = "a,\"\nb" ∧
    parseCSV (quoteCell "a,\"\nb") = [["a,\"\nb"]] := by
  have h1 : jsTrim "a,\"\nb" = "a,\"\nb" := by decide
  have h2 := (c4_thm "a,\"\nb").1 (by decide)
  rw [h1] at h2
  exact ⟨h1, h2⟩

/-- Claim C9 (confirmed): `parseCSV` is a total function (so it never
raises); every row of its result is non-empty and contains a cell that is
non-empty after trimming; the empty input yields the empty grid; and a
trailing row with no line terminator is still captured. -/
theorem c9_thm :
    (∀ (text : String), ∀ r ∈ parseCSV text,
      0 < r.length ∧ ∃ c ∈ r, jsTrim c ≠ "") ∧
    parseCSV "" = [] ∧
    parseCSV "a,b\nc,d" = [["a", "b"], ["c", "d"]] := by
  refine ⟨?_, by decide, by decide⟩
  intro text r hr
  obtain ⟨hlen, c, hc, hne⟩ := parseCSV_row_pred text r hr
  refine ⟨hlen, c, hc, ?_⟩
  rw [parseCSV_cells_trimmed text r hr c hc]
  exact hne

/-- Witness for C9 at a concrete input. -/
theorem c9_witness :
    0 < (["a", "b"] : List String).length ∧
    ∃ c ∈ (["a", "b"] : List String), jsTrim c ≠ "" :=
  c9_thm.1 "a,b\nc,d" ["a", "b"] (by decide)

/-- Claim C10 (confirmed): every cell of every `parseCSV` result is fixed
by JavaScript `trim` and so neither starts nor ends with a whitespace
character; quoting protects commas, newlines and quotes but never
surrounding whitespace, as the concrete quoted example shows. -/
theorem c10_thm :
    (∀ (text : String), ∀ r ∈ parseCSV text, ∀ c ∈ r,
      jsTrim c = c ∧
      (∀ a, c.data.head? = some a → jsIsWs a = false) ∧
      (∀ a, c.data.getLast? = some a → jsIsWs a = false)) ∧
    parseCSV "\" x \",\" y \"" = [["x", "y"]] := by
  constructor
  · intro text r hr c hc
    have ht := parseCSV_cells_trimmed text r hr c hc
    have hd : jsTrimL c.data = c.data := congrArg String.data ht
    refine ⟨ht, ?_, ?_⟩
    · intro a ha; rw [← hd] at ha; exact jsTrimL_head_not_ws _ _ ha
    · intro a ha; rw [← hd] at ha; exact jsTrimL_getLast_not_ws _ _ ha
  · decide

/-- Witness for C10 at a concrete input with quoted, space-padded cells. -/
theorem c10_witness :
    jsTrim "x" = "x" ∧
    (∀ a, ("x" : String).data.head? = some a → jsIsWs a = false) ∧
    (∀ a, ("x" : String).data.getLast? = some a → jsIsWs a = false) :=
  c10_thm.1 "\" x \",\" y \"" ["x", "y"] (by decide) "x" (by decide)

/-! ## The smart-answer resolver -/

/-- Claim C1 (corrected), counterexample to the claim as stated: row
`["A"]` with `outputMode = Content`, `sourceKeyIdx = 0` and
`optionIndices = [7]`: the key `A` decodes to position `0`, slot `0` is
set to column `7`, which is not a valid index into the one-cell row — and
the result is the empty string, not the raw trimmed key `"A"`, because
`row[Number(colIdx)] || ''` returns from inside the bounds check. -/
theorem c1_counterexample :
    processSmartAnswer ["A"] (some ⟨.num 0, .content, [.num 7]⟩) = "" ∧
    rawKeyOf ["A"] ⟨.num 0, .content, [.num 7]⟩ = "A" ∧
    ("" : String) ≠ "A" := by
  refine ⟨by decide, by decide, by decide⟩

/-- Claim C1 (corrected, amended): with `outputMode = Content`, when the
normalized key decodes to a position within bounds of `optionIndices` and
the slot at that position is set to a column index that is out of range
for the row, the result is the empty string; the fallback to the raw
trimmed key covers the undecodable keys, the positions out of bounds of
`optionIndices`, and the unset option slots. -/
theorem c1_thm (row : List String) (c : AnswerConfig)
    (hmode : c.outputMode = .content) (hkey : c.sourceKeyIdx ≠ .str "") :
    (∀ t n, decodeKeyPos (keyOf row c) = some t →
      t < c.optionIndices.length →
      c.optionIndices.getD t (.str "") = .num n →
      row.length ≤ n →
      processSmartAnswer row (some c) = "") ∧
    (decodeKeyPos (keyOf row c) = none →
      processSmartAnswer row (some c) = rawKeyOf row c) ∧
    (∀ t, decodeKeyPos (keyOf row c) = some t →
      c.optionIndices.length ≤ t →
      processSmartAnswer row (some c) = rawKeyOf row c) ∧
    (∀ t, decodeKeyPos (keyOf row c) = some t →
      t < c.optionIndices.length →
      c.optionIndices.getD t (.str "") = .str "" →
      processSmartAnswer row (some c) = rawKeyOf row c) := by
  have hbody : processSmartAnswer row (some c) =
      match decodeKeyPos (keyOf row c) with
      | some t =>
          if t < c.optionIndices.length then
            if c.optionIndices.getD t (.str "") ≠ .str "" then
              jsIndex row (c.optionIndices.getD t (.str ""))
            else rawKeyOf row c
          else rawKeyOf row c
      | none => rawKeyOf row c := by
    show (if c.sourceKeyIdx = .str "" then "" else _) = _
    rw [if_neg hkey]
    show (if c.outputMode = .key then keyOf row c else _) = _
    rw [hmode]
    rw [if_neg (by simp)]
    rfl
  refine ⟨?_, ?_, ?_, ?_⟩
  · intro t n hdec hlt hslot hrange
    rw [hbody, hdec]
    show (if t < c.optionIndices.length then
            if c.optionIndices.getD t (.str "") ≠ .str "" then
              jsIndex row (c.optionIndices.getD t (.str ""))
            else rawKeyOf row c
          else rawKeyOf row c) = ""
    rw [if_pos hlt, hslot, if_pos (by simp)]
    show row.getD n "" = ""
    exact List.getD_eq_default _ _ hrange
  · intro hdec
    rw [hbody, hdec]
  · intro t hdec hge
    rw [hbody, hdec]
    show (if t < c.optionIndices.length then
            if c.optionIndices.getD t (.str "") ≠ .str "" then
              jsIndex row (c.optionIndices.getD t (.str ""))
            else rawKeyOf row c
          else rawKeyOf row c) = rawKeyOf row c
    rw [if_neg (by omega)]
  · intro t hdec hlt hslot
    rw [hbody, hdec]
    show (if t < c.optionIndices.length then
            if c.optionIndices.getD t (.str "") ≠ .str "" then
              jsIndex row (c.optionIndices.getD t (.str ""))
            else rawKeyOf row c
          else rawKeyOf row c) = rawKeyOf row c
    rw [if_pos hlt, hslot, if_neg (by simp)]

/-- Witness for C1 at concrete inputs: a set but out-of-range slot yields
the empty string, and an unset slot falls back to the raw key. -/
theorem c1_witness :
    processSmartAnswer ["x", "A"] (some ⟨.num 1, .content, [.num 7]⟩) = "" ∧
    processSmartAnswer ["4"]
      (some ⟨.num 0, .content, [.num 1, .num 2, .num 3, .str ""]⟩) =
      rawKeyOf ["4"] ⟨.num 0, .content, [.num 1, .num 2, .num 3, .str ""]⟩ := by
  have h1 := (c1_thm ["x", "A"] ⟨.num 1, .content, [.num 7]⟩ rfl
    (by decide)).1 0 7 (by decide) (by decide) (by decide) (by decide)
  have h2 := (c1_thm ["4"]
    ⟨.num 0, .content, [.num 1, .num 2, .num 3, .str ""]⟩ rfl
    (by decide)).2.2.2 3 (by decide) (by decide) (by decide)
  exact ⟨h1, h2⟩

/-- Claim C2 (code_bug): on row `["X", "Y"]`, a ColumnRef field with
`sourceValue` unset (the empty string) evaluates to `"X"`, the content of
column 0, because JavaScript computes `Number('') = 0` — the claim (and
the spec) say an unset `sourceValue` yields the empty string and never
the content of any column.  The in-range and out-of-range parts of the
claim do hold, as the second conjunct shows. -/
theorem c2_thm :
    evalField "source.csv" ["X", "Y"]
      ⟨"f1", "Q", .csv_column, .str "", none⟩ = "X" ∧
    (∀ (row : List String) (f : ExportField) (n : Nat) (fn : String),
      f.type = .csv_column → f.sourceValue = .num n →
      (n < row.length → evalField fn row f = row.getD n "") ∧
      (row.length ≤ n → evalField fn row f = "")) := by
  constructor
  · decide
  · intro row f n fn ht hv
    constructor
    · intro _
      simp [evalField, ht, hv, jsIndex, jsNumberOf]
    · intro h
      have hev : evalField fn row f = row.getD n "" := by
        simp [evalField, ht, hv, jsIndex, jsNumberOf]
      rw [hev, List.getD_eq_default _ _ h]

/-- Witness for C2's universally quantified conjunct at concrete inputs. -/
theorem c2_witness :
    evalField "source.csv" ["X", "Y"]
      ⟨"f2", "Q", .csv_column, .num 1, none⟩ = "Y" ∧
    evalField "source.csv" ["X", "Y"]
      ⟨"f3", "Q", .csv_column, .num 5, none⟩ = "" := by
  have h1 := (c2_thm.2 ["X", "Y"] ⟨"f2", "Q", .csv_column, .num 1, none⟩
    1 "source.csv" rfl rfl).1 (by decide)
  have h2 := (c2_thm.2 ["X", "Y"] ⟨"f3", "Q", .csv_column, .num 5, none⟩
    5 "source.csv" rfl rfl).2 (by decide)
  exact ⟨h1.trans (by decide), h2⟩

theorem toNat_ofNat_upper (n : Nat) (h1 : 65 ≤ n) (h2 : n ≤ 90) :
    (Char.ofNat n).toNat = n := by
  interval_cases n <;> decide

theorem toNat_ofNat_fwupper (n : Nat) (h1 : 0xFF21 ≤ n) (h2 : n ≤ 0xFF3A) :
    (Char.ofNat n).toNat = n := by
  interval_cases n <;> decide

theorem jsToUpperChar_fw_id (c : Char)
    (h : (0xFF21 ≤ c.toNat ∧ c.toNat ≤ 0xFF3A) ∨
      (0xFF10 ≤ c.toNat ∧ c.toNat ≤ 0xFF19)) :
    jsToUpperChar c = c := by
  unfold jsToUpperChar
  repeat rw [if_neg (by omega)]

theorem jsToUpperChar_ascii_id (c : Char) (h : c.toNat ≤ 127)
    (h2 : ¬(97 ≤ c.toNat ∧ c.toNat ≤ 122)) : jsToUpperChar c = c := by
  unfold jsToUpperChar
  rw [if_neg h2]
  repeat rw [if_neg (by omega)]

/-- Claim C5 (confirmed): key normalization maps the trimmed key
character-by-character (shown by the append homomorphism), first to its
uppercase form — verified here on the uppercase ranges the character
model covers, `a`-`z` to `A`-`Z` and full-width `ａ`-`ｚ` to the
half-width capital — then the replacement step shifts every full-width
capital letter and full-width digit down by `0xFEE0` to its half-width
equivalent and passes every other character through unchanged; full-width
capitals and digits reach the replacement step unaltered, uncased ASCII
characters pass the whole normalization unchanged, the resolver applies
the normalization to the trimmed raw key, and the three concrete examples
of the spec hold. -/
theorem c5_thm :
    normalizeKey "Ａ" = "A" ∧ normalizeKey "３" = "3" ∧
    normalizeKey "a" = "A" ∧
    (∀ s t : String, normalizeKey (s ++ t) =
      normalizeKey s ++ normalizeKey t) ∧
    (∀ c : Char, (0xFF21 ≤ c.toNat ∧ c.toNat ≤ 0xFF3A) ∨
        (0xFF10 ≤ c.toNat ∧ c.toNat ≤ 0xFF19) →
      fwToHalf c = Char.ofNat (c.toNat - 0xFEE0)) ∧
    (∀ c : Char, ¬((0xFF21 ≤ c.toNat ∧ c.toNat ≤ 0xFF3A) ∨
        (0xFF10 ≤ c.toNat ∧ c.toNat ≤ 0xFF19)) →
      fwToHalf c = c) ∧
    (∀ c : Char, 97 ≤ c.toNat → c.toNat ≤ 122 →
      normalizeKey ⟨[c]⟩ = ⟨[Char.ofNat (c.toNat - 32)]⟩) ∧
    (∀ c : Char, 0xFF41 ≤ c.toNat → c.toNat ≤ 0xFF5A →
      normalizeKey ⟨[c]⟩ = ⟨[Char.ofNat (c.toNat - 32 - 0xFEE0)]⟩) ∧
    (∀ c : Char, 0xFF21 ≤ c.toNat → c.toNat ≤ 0xFF3A →
      normalizeKey ⟨[c]⟩ = ⟨[Char.ofNat (c.toNat - 0xFEE0)]⟩) ∧
    (∀ c : Char, 0xFF10 ≤ c.toNat → c.toNat ≤ 0xFF19 →
      normalizeKey ⟨[c]⟩ = ⟨[Char.ofNat (c.toNat - 0xFEE0)]⟩) ∧
    (∀ c : Char, c.toNat ≤ 127 → ¬(97 ≤ c.toNat ∧ c.toNat ≤ 122) →
      normalizeKey ⟨[c]⟩ = ⟨[c]⟩) ∧
    (∀ (row : List String) (c : AnswerConfig), c.outputMode = .key →
      c.sourceKeyIdx ≠ .str "" →
      processSmartAnswer row (some c) =
        normalizeKey (jsTrim (jsIndex row c.sourceKeyIdx))) := by
  refine ⟨by decide, by decide, by decide, ?_, ?_, ?_, ?_, ?_, ?_, ?_, ?_, ?_⟩
  · intro s t
    apply String.ext
    simp [normalizeKey, String.data_append]
  · intro c h
    unfold fwToHalf
    rw [if_pos h]
  · intro c h
    unfold fwToHalf
    rw [if_neg h]
  · intro c h1 h2
    show (⟨[fwToHalf (jsToUpperChar c)]⟩ : String) = _
    have hu : jsToUpperChar c = Char.ofNat (c.toNat - 32) := by
      unfold jsToUpperChar
      rw [if_pos ⟨h1, h2⟩]
    rw [hu]
    have ht : (Char.ofNat (c.toNat - 32)).toNat = c.toNat - 32 :=
      toNat_ofNat_upper _ (by omega) (by omega)
    unfold fwToHalf
    rw [if_neg (by rw [ht]; omega)]
  · intro c h1 h2
    show (⟨[fwToHalf (jsToUpperChar c)]⟩ : String) = _
    have hu : jsToUpperChar c = Char.ofNat (c.toNat - 32) := by
      unfold jsToUpperChar
      rw [if_neg (by omega), if_pos ⟨h1, h2⟩]
    rw [hu]
    have ht : (Char.ofNat (c.toNat - 32)).toNat = c.toNat - 32 :=
      toNat_ofNat_fwupper _ (by omega) (by omega)
    unfold fwToHalf
    rw [if_pos (Or.inl (by rw [ht]; exact ⟨by omega, by omega⟩)), ht]
  · intro c h1 h2
    show (⟨[fwToHalf (jsToUpperChar c)]⟩ : String) = _
    rw [jsToUpperChar_fw_id c (Or.inl ⟨h1, h2⟩)]
    unfold fwToHalf
    rw [if_pos (Or.inl ⟨h1, h2⟩)]
  · intro c h1 h2
    show (⟨[fwToHalf (jsToUpperChar c)]⟩ : String) = _
    rw [jsToUpperChar_fw_id c (Or.inr ⟨h1, h2⟩)]
    unfold fwToHalf
    rw [if_pos (Or.inr ⟨h1, h2⟩)]
  · intro c h1 h2
    show (⟨[fwToHalf (jsToUpperChar c)]⟩ : String) = _
    rw [jsToUpperChar_ascii_id c h1 h2]
    unfold fwToHalf
    rw [if_neg (by omega)]
  · intro row c hmode hkey
    show (if c.sourceKeyIdx = .str "" then "" else _) = _
    rw [if_neg hkey]
    show (if c.outputMode = .key then _ else _) = _
    rw [hmode, if_pos rfl]
    rfl

/-- Witness for C5's quantified conjuncts at concrete inputs. -/
theorem c5_witness :
    fwToHalf 'Ａ' = Char.ofNat ('Ａ'.toNat - 0xFEE0) ∧
    fwToHalf 'x' = 'x' ∧
    normalizeKey ⟨['ａ']⟩ = ⟨[Char.ofNat ('ａ'.toNat - 32 - 0xFEE0)]⟩ ∧
    processSmartAnswer ["ｂ"] (some ⟨.num 0, .key, []⟩) =
      normalizeKey (jsTrim (jsIndex ["ｂ"] (.num 0))) := by
  have h1 := c5_thm.2.2.2.2.1 'Ａ' (Or.inl (by decide))
  have h2 := c5_thm.2.2.2.2.2.1 'x' (by decide)
  have h3 := c5_thm.2.2.2.2.2.2.2.1 'ａ' (by decide) (by decide)
  have h4 := c5_thm.2.2.2.2.2.2.2.2.2.2.2 ["ｂ"] ⟨.num 0, .key, []⟩ rfl
    (by decide)
  exact ⟨h1, h2, h3, h4⟩

/-- Claim C6 (confirmed): on the spec's example row, Content mode
resolves the key `B` to `opt B` and Key mode returns `B`; in general a
single character `A`-`Z` (code points 65-90) decodes to its alphabet
index and a single character `1`-`9` (code points 49-57) decodes to its
digit value minus one. -/
theorem c6_thm :
    processSmartAnswer ["Q1", "opt A", "opt B", "opt C", "opt D", "B"]
      (some ⟨.num 5, .content, [.num 1, .num 2, .num 3, .num 4]⟩) =
      "opt B" ∧
    processSmartAnswer ["Q1", "opt A", "opt B", "opt C", "opt D", "B"]
      (some ⟨.num 5, .key, [.num 1, .num 2, .num 3, .num 4]⟩) = "B" ∧
    (∀ c : Char, 65 ≤ c.toNat → c.toNat ≤ 90 →
      decodeKeyPos ⟨[c]⟩ = some (c.toNat - 65)) ∧
    (∀ c : Char, 49 ≤ c.toNat → c.toNat ≤ 57 →
      decodeKeyPos ⟨[c]⟩ = some (c.toNat - 49)) := by
  refine ⟨by decide, by decide, ?_, ?_⟩
  · intro c h1 h2
    show (if 65 ≤ c.toNat ∧ c.toNat ≤ 90 then some (c.toNat - 65) else _) = _
    rw [if_pos ⟨h1, h2⟩]
  · intro c h1 h2
    show (if 65 ≤ c.toNat ∧ c.toNat ≤ 90 then some (c.toNat - 65) else _) = _
    rw [if_neg (by omega), if_pos ⟨h1, h2⟩]

/-- Witness for C6's decoding conjuncts at concrete keys. -/
theorem c6_witness :
    decodeKeyPos ⟨['B']⟩ = some 1 ∧ decodeKeyPos ⟨['3']⟩ = some 2 := by
  have h1 := c6_thm.2.2.1 'B' (by decide) (by decide)
  have h2 := c6_thm.2.2.2 '3' (by decide) (by decide)
  exact ⟨h1.trans (by decide), h2.trans (by decide)⟩

/-- Claim C7 (confirmed): the emitted CSV is the unquoted header line
(header names joined by commas) followed by one data line per grid row
except row 0, each data cell being the evaluator result quoted with
embedded quotes doubled, cells joined by commas, lines joined by `\n`;
and the concrete two-column example emits `h1,h2` then
`"a,b","c""d"`. -/
theorem c7_thm :
    (∀ (config : List ExportField) (grid : List (List String))
        (filename : String),
      generateCSV config grid filename =
        String.intercalate "\n"
          (String.intercalate "," (config.map (fun f => f.headerName)) ::
            (grid.drop 1).map (fun row =>
              String.intercalate "," (config.map (fun f =>
                quoteCell (evalField filename row f)))))) ∧
    generateCSV
      [⟨"c0", "h1", .csv_column, .num 0, none⟩,
       ⟨"c1", "h2", .csv_column, .num 1, none⟩]
      [["h1", "h2"], ["a,b", "c\"d"]] "source.csv" =
      "h1,h2\n\"a,b\",\"c\"\"d\"" :=
  ⟨fun _ _ _ => rfl, by decide⟩

/-! ## JSON whitespace and digits -/

theorem skipWs_cons_not (c : Char) (cs : List Char) (h : jsonWsCh c = false) :
    skipWs (c :: cs) = c :: cs := by
  simp [skipWs, h]

theorem skipWs_append (ws cs : List Char)
    (h : ∀ c ∈ ws, jsonWsCh c = true) : skipWs (ws ++ cs) = skipWs cs := by
  induction ws with
  | nil => rfl
  | cons w ws ih =>
      have hw := h w (by simp)
      show skipWs (w :: (ws ++ cs)) = skipWs cs
      rw [show skipWs (w :: (ws ++ cs)) = skipWs (ws ++ cs) by
        simp [skipWs, hw]]
      exact ih (fun c hc => h c (List.mem_cons_of_mem _ hc))

theorem spacesL_all_ws (n : Nat) : ∀ c ∈ spacesL n, jsonWsCh c = true := by
  intro c hc
  have h := List.eq_of_mem_replicate hc
  subst h
  decide

theorem isDigitCh_bounds (c : Char) (h : isDigitCh c = true) :
    48 ≤ c.toNat ∧ c.toNat ≤ 57 := by
  simpa [isDigitCh] using h

theorem jsonWs_not_digit (c : Char) (h : jsonWsCh c = true) :
    isDigitCh c = false := by
  simp only [jsonWsCh, Bool.or_eq_true, beq_iff_eq] at h
  rcases h with ((h | h) | h) | h <;> subst h <;> decide

theorem digit_not_special (c : Char) (h : isDigitCh c = true) :
    jsonWsCh c = false ∧ c ≠ ']' ∧ c ≠ '\x7d' := by
  obtain ⟨hl, hr⟩ := isDigitCh_bounds c h
  refine ⟨?_, ?_, ?_⟩
  · simp only [jsonWsCh, Bool.or_eq_false_iff, beq_eq_false_iff_ne, ne_eq]
    refine ⟨⟨⟨?_, ?_⟩, ?_⟩, ?_⟩ <;>
      (intro he; subst he; exact absurd hl (by decide))
  · intro he; subst he; exact absurd hr (by decide)
  · intro he; subst he; exact absurd hr (by decide)

theorem jsonWs_numBound (c : Char) (h : jsonWsCh c = true) :
    isDigitCh c = false ∧ c ≠ '.' ∧ c ≠ 'e' ∧ c ≠ 'E' := by
  simp only [jsonWsCh, Bool.or_eq_true, beq_iff_eq] at h
  rcases h with ((h | h) | h) | h <;> subst h <;> decide

theorem numBoundary_nil : numBoundary [] := by
  intro d h
  simp at h

theorem numBoundary_cons (c : Char) (cs : List Char)
    (h : isDigitCh c = false ∧ c ≠ '.' ∧ c ≠ 'e' ∧ c ≠ 'E') :
    numBoundary (c :: cs) := by
  intro d hd
  simp at hd
  subst hd
  exact h

theorem numBoundary_ws_append (ws rest : List Char)
    (hws : ∀ c ∈ ws, jsonWsCh c = true) (h : numBoundary rest) :
    numBoundary (ws ++ rest) := by
  cases ws with
  | nil => simpa using h
  | cons w ws =>
      exact numBoundary_cons _ _ (jsonWs_numBound w (hws w (by simp)))

theorem toNat_digitChar (n : Nat) (h : n < 10) :
    (Char.ofNat (48 + n)).toNat = 48 + n := by
  interval_cases n <;> decide

theorem isDigitCh_digitChar (n : Nat) (h : n < 10) :
    isDigitCh (Char.ofNat (48 + n)) = true := by
  interval_cases n <;> decide

theorem natDigitsAux_spec :
    ∀ (fuel n : Nat), n < fuel →
      (∃ d ds, natDigitsAux fuel n = d :: ds) ∧
      (∀ c ∈ natDigitsAux fuel n, isDigitCh c = true) ∧
      (∀ a : Nat, List.foldl (fun a c => a * 10 + (c.toNat - 48)) a
        (natDigitsAux fuel n) =
        a * 10 ^ (natDigitsAux fuel n).length + n) := by
  intro fuel
  induction fuel with
  | zero => intro n h; omega
  | succ fuel ih =>
      intro n h
      by_cases h10 : n < 10
      · have hunf : natDigitsAux (fuel + 1) n = [Char.ofNat (48 + n)] := by
          simp [natDigitsAux, h10]
        refine ⟨⟨_, _, hunf⟩, ?_, ?_⟩
        · intro c hc
          rw [hunf] at hc
          simp at hc
          subst hc
          exact isDigitCh_digitChar n h10
        · intro a
          rw [hunf]
          simp only [List.foldl, List.length_singleton, pow_one,
            toNat_digitChar n h10]
          omega
      · have hrec : n / 10 < fuel := by omega
        obtain ⟨⟨d, ds, hd⟩, hdig, hval⟩ := ih (n / 10) hrec
        have hunf : natDigitsAux (fuel + 1) n =
            natDigitsAux fuel (n / 10) ++ [Char.ofNat (48 + n % 10)] := by
          simp [natDigitsAux, h10]
        refine ⟨?_, ?_, ?_⟩
        · rw [hunf, hd]
          exact ⟨d, ds ++ [Char.ofNat (48 + n % 10)], rfl⟩
        · intro c hc
          rw [hunf] at hc
          rcases List.mem_append.mp hc with h1 | h1
          · exact hdig c h1
          · simp at h1
            subst h1
            exact isDigitCh_digitChar (n % 10) (by omega)
        · intro a
          rw [hunf, List.foldl_append, hval a, List.length_append]
          simp only [List.foldl, List.length_singleton]
          rw [toNat_digitChar (n % 10) (by omega)]
          have hm : 48 + n % 10 - 48 = n % 10 := by omega
          rw [hm, pow_succ]
          calc (a * 10 ^ (natDigitsAux fuel (n / 10)).length + n / 10) * 10 +
                n % 10
              = a * (10 ^ (natDigitsAux fuel (n / 10)).length * 10) +
                (n / 10 * 10 + n % 10) := by ring
            _ = a * (10 ^ (natDigitsAux fuel (n / 10)).length * 10) + n := by
                congr 1
                omega

theorem natDigits_cons (n : Nat) :
    ∃ d ds, natDigits n = d :: ds ∧ isDigitCh d = true := by
  obtain ⟨⟨d, ds, hd⟩, hdig, _⟩ := natDigitsAux_spec (n + 1) n (by omega)
  exact ⟨d, ds, hd, hdig d (by rw [hd]; simp)⟩

theorem natDigits_all_digits (n : Nat) :
    ∀ c ∈ natDigits n, isDigitCh c = true :=
  (natDigitsAux_spec (n + 1) n (by omega)).2.1

theorem natDigitsAux_head_pos :
    ∀ (fuel n : Nat), n < fuel → 1 ≤ n →
      ∀ d ds, natDigitsAux fuel n = d :: ds → d ≠ '0' := by
  intro fuel
  induction fuel with
  | zero => intro n h; omega
  | succ fuel ih =>
      intro n h hpos d ds hd
      by_cases h10 : n < 10
      · have hunf : natDigitsAux (fuel + 1) n = [Char.ofNat (48 + n)] := by
          simp [natDigitsAux, h10]
        rw [hunf] at hd
        simp at hd
        obtain ⟨hd1, _⟩ := hd
        subst hd1
        intro he
        have h1 : (Char.ofNat (48 + n)).toNat = 48 + n := toNat_digitChar n h10
        rw [he] at h1
        have h2 : ('0' : Char).toNat = 48 := by decide
        omega
      · have hrec : n / 10 < fuel := by omega
        obtain ⟨⟨d2, ds2, hd2⟩, _, _⟩ := natDigitsAux_spec fuel (n / 10) hrec
        have hunf : natDigitsAux (fuel + 1) n =
            natDigitsAux fuel (n / 10) ++ [Char.ofNat (48 + n % 10)] := by
          simp [natDigitsAux, h10]
        rw [hunf, hd2] at hd
        simp only [List.cons_append, List.cons.injEq] at hd
        obtain ⟨hd1, _⟩ := hd
        exact hd1 ▸ ih (n / 10) hrec (by omega) d2 ds2 hd2

theorem natDigits_head_pos (n : Nat) (hpos : 1 ≤ n) (d : Char)
    (ds : List Char) (hd : natDigits n = d :: ds) : d ≠ '0' :=
  natDigitsAux_head_pos (n + 1) n (by omega) hpos d ds hd

theorem digitsToNat_natDigits (n : Nat) : digitsToNat (natDigits n) = n := by
  have h := (natDigitsAux_spec (n + 1) n (by omega)).2.2 0
  simpa [digitsToNat, natDigits] using h

theorem takeWhile_dropWhile_append (p : Char → Bool) :
    ∀ (l rest : List Char), (∀ c ∈ l, p c = true) →
      (∀ d, rest.head? = some d → p d = false) →
      (l ++ rest).takeWhile p = l ∧ (l ++ rest).dropWhile p = rest := by
  intro l
  induction l with
  | nil =>
      intro rest hall hrest
      cases rest with
      | nil => exact ⟨rfl, rfl⟩
      | cons d ds =>
          have hd := hrest d rfl
          exact ⟨by simp [List.takeWhile, hd], by simp [List.dropWhile, hd]⟩
  | cons c cs ih =>
      intro rest hall hrest
      have hc := hall c (by simp)
      obtain ⟨h1, h2⟩ := ih rest (fun x hx => hall x (by simp [hx])) hrest
      exact ⟨by simp [List.takeWhile, hc, h1], by simp [List.dropWhile, hc, h2]⟩

theorem digit_ne_minus (c : Char) (h : isDigitCh c = true) : c ≠ '-' := by
  intro he
  subst he
  exact absurd h (by decide)

theorem parseNum_natDigits (n : Nat) (rest : List Char)
    (hrest : numBoundary rest) :
    parseNum (natDigits n ++ rest) = some (.jnum n, rest) := by
  have hdot : (rest.head? = some '.') = False := by
    simp only [eq_iff_iff, iff_false]
    intro h
    exact (hrest _ h).2.1 rfl
  have he1 : (rest.head? = some 'e') = False := by
    simp only [eq_iff_iff, iff_false]
    intro h
    exact (hrest _ h).2.2.1 rfl
  have he2 : (rest.head? = some 'E') = False := by
    simp only [eq_iff_iff, iff_false]
    intro h
    exact (hrest _ h).2.2.2 rfl
  rcases Nat.eq_zero_or_pos n with rfl | hpos
  · rw [show natDigits 0 = ['0'] from rfl]
    simp [parseNum, hdot, he1, he2, (by decide : isDigitCh '0' = true),
      (by decide : digitsToNat ['0'] = 0)]
  · obtain ⟨d, ds, hd, hdig⟩ := natDigits_cons n
    have hd0 : d ≠ '0' := natDigits_head_pos n hpos d ds hd
    obtain ⟨htake, hdrop⟩ := takeWhile_dropWhile_append isDigitCh
      (natDigits n) rest (natDigits_all_digits n)
      (fun d2 h => (hrest d2 h).1)
    have hhead : (natDigits n ++ rest).head? = some d := by
      rw [hd]
      rfl
    simp [parseNum, hhead, eq_false (digit_ne_minus d hdig), hdig,
      eq_false hd0, hdrop, htake, hdot, he1, he2, digitsToNat_natDigits]

/-! ## The JSON string escape round trip -/

theorem hexVal_hexCh (k : Nat) (h : k < 16) : hexVal (hexCh k) = some k := by
  interval_cases k <;> decide

theorem parseStrBody_close (acc rest : List Char) :
    parseStrBody ('"' :: rest) acc = some (⟨acc⟩, rest) := by
  rw [parseStrBody.eq_def]
  simp

theorem parseStrBody_esc_quote (acc X : List Char) :
    parseStrBody ('\\' :: '"' :: X) acc = parseStrBody X (acc ++ ['"']) := by
  rw [parseStrBody.eq_def]
  simp

theorem parseStrBody_esc_backslash (acc X : List Char) :
    parseStrBody ('\\' :: '\\' :: X) acc = parseStrBody X (acc ++ ['\\']) := by
  rw [parseStrBody.eq_def]
  simp

theorem parseStrBody_esc_b (acc X : List Char) :
    parseStrBody ('\\' :: 'b' :: X) acc = parseStrBody X (acc ++ ['\x08']) := by
  rw [parseStrBody.eq_def]
  simp

theorem parseStrBody_esc_t (acc X : List Char) :
    parseStrBody ('\\' :: 't' :: X) acc = parseStrBody X (acc ++ ['\t']) := by
  rw [parseStrBody.eq_def]
  simp

theorem parseStrBody_esc_n (acc X : List Char) :
    parseStrBody ('\\' :: 'n' :: X) acc = parseStrBody X (acc ++ ['\n']) := by
  rw [parseStrBody.eq_def]
  simp

theorem parseStrBody_esc_f (acc X : List Char) :
    parseStrBody ('\\' :: 'f' :: X) acc = parseStrBody X (acc ++ ['\x0c']) := by
  rw [parseStrBody.eq_def]
  simp

theorem parseStrBody_esc_r (acc X : List Char) :
    parseStrBody ('\\' :: 'r' :: X) acc = parseStrBody X (acc ++ ['\x0d']) := by
  rw [parseStrBody.eq_def]
  simp

theorem parseStrBody_esc_u (acc X : List Char) (h1 h2 h3 h4 : Char)
    (a b c2 d : Nat) (ha : hexVal h1 = some a) (hb : hexVal h2 = some b)
    (hc : hexVal h3 = some c2) (hd : hexVal h4 = some d) :
    parseStrBody ('\\' :: 'u' :: h1 :: h2 :: h3 :: h4 :: X) acc =
      parseStrBody X
        (acc ++ [Char.ofNat (((a * 16 + b) * 16 + c2) * 16 + d)]) := by
  rw [parseStrBody.eq_def]
  simp [ha, hb, hc, hd]

theorem parseStrBody_plain (acc X : List Char) (c : Char) (h1 : c ≠ '"')
    (h2 : c ≠ '\\') (h8 : ¬c.toNat < 0x20) :
    parseStrBody (c :: X) acc = parseStrBody X (acc ++ [c]) := by
  rw [parseStrBody.eq_def]
  simp [h1, h2, h8]

theorem parseStrBody_esc :
    ∀ (l acc rest : List Char),
      parseStrBody (concatMapL escCharJ l ++ ('"' :: rest)) acc =
        some (⟨acc ++ l⟩, rest) := by
  intro l
  induction l with
  | nil =>
      intro acc rest
      show parseStrBody ('"' :: rest) acc = _
      rw [parseStrBody_close]
      simp
  | cons c cs ih =>
      intro acc rest
      show parseStrBody ((escCharJ c ++ concatMapL escCharJ cs) ++
        ('"' :: rest)) acc = _
      rw [List.append_assoc]
      by_cases h1 : c = '"'
      · subst h1
        rw [show escCharJ '"' = ['\\', '"'] from rfl]
        rw [show (['\\', '"'] ++ (concatMapL escCharJ cs ++ ('"' :: rest))) =
          '\\' :: '"' :: (concatMapL escCharJ cs ++ ('"' :: rest)) from rfl]
        rw [parseStrBody_esc_quote, ih]
        simp
      by_cases h2 : c = '\\'
      · subst h2
        rw [show escCharJ '\\' = ['\\', '\\'] from rfl]
        rw [show (['\\', '\\'] ++ (concatMapL escCharJ cs ++ ('"' :: rest))) =
          '\\' :: '\\' :: (concatMapL escCharJ cs ++ ('"' :: rest)) from rfl]
        rw [parseStrBody_esc_backslash, ih]
        simp
      by_cases h3 : c = '\x08'
      · subst h3
        rw [show escCharJ '\x08' = ['\\', 'b'] from rfl]
        rw [show (['\\', 'b'] ++ (concatMapL escCharJ cs ++ ('"' :: rest))) =
          '\\' :: 'b' :: (concatMapL escCharJ cs ++ ('"' :: rest)) from rfl]
        rw [parseStrBody_esc_b, ih]
        simp
      by_cases h4 : c = '\t'
      · subst h4
        rw [show escCharJ '\t' = ['\\', 't'] from rfl]
        rw [show (['\\', 't'] ++ (concatMapL escCharJ cs ++ ('"' :: rest))) =
          '\\' :: 't' :: (concatMapL escCharJ cs ++ ('"' :: rest)) from rfl]
        rw [parseStrBody_esc_t, ih]
        simp
      by_cases h5 : c = '\n'
      · subst h5
        rw [show escCharJ '\n' = ['\\', 'n'] from rfl]
        rw [show (['\\', 'n'] ++ (concatMapL escCharJ cs ++ ('"' :: rest))) =
          '\\' :: 'n' :: (concatMapL escCharJ cs ++ ('"' :: rest)) from rfl]
        rw [parseStrBody_esc_n, ih]
        simp
      by_cases h6 : c = '\x0c'
      · subst h6
        rw [show escCharJ '\x0c' = ['\\', 'f'] from rfl]
        rw [show (['\\', 'f'] ++ (concatMapL escCharJ cs ++ ('"' :: rest))) =
          '\\' :: 'f' :: (concatMapL escCharJ cs ++ ('"' :: rest)) from rfl]
        rw [parseStrBody_esc_f, ih]
        simp
      by_cases h7 : c = '\x0d'
      · subst h7
        rw [show escCharJ '\x0d' = ['\\', 'r'] from rfl]
        rw [show (['\\', 'r'] ++ (concatMapL escCharJ cs ++ ('"' :: rest))) =
          '\\' :: 'r' :: (concatMapL escCharJ cs ++ ('"' :: rest)) from rfl]
        rw [parseStrBody_esc_r, ih]
        simp
      by_cases h8 : c.toNat < 0x20
      · have hesc : escCharJ c =
            ['\\', 'u', '0', '0', hexCh (c.toNat / 16), hexCh (c.toNat % 16)] := by
          unfold escCharJ
          rw [if_neg h1, if_neg h2, if_neg h3, if_neg h4, if_neg h5, if_neg h6,
            if_neg h7, if_pos h8]
        rw [hesc]
        rw [show (['\\', 'u', '0', '0', hexCh (c.toNat / 16),
              hexCh (c.toNat % 16)] ++
              (concatMapL escCharJ cs ++ ('"' :: rest))) =
          '\\' :: 'u' :: '0' :: '0' :: hexCh (c.toNat / 16) ::
            hexCh (c.toNat % 16) ::
            (concatMapL escCharJ cs ++ ('"' :: rest)) from rfl]
        rw [parseStrBody_esc_u _ _ _ _ _ _ 0 0 (c.toNat / 16) (c.toNat % 16)
          (by decide) (by decide) (hexVal_hexCh _ (by omega))
          (hexVal_hexCh _ (by omega))]
        have hch : Char.ofNat (((0 * 16 + 0) * 16 + c.toNat / 16) * 16 +
            c.toNat % 16) = c := by
          have harith : ((0 * 16 + 0) * 16 + c.toNat / 16) * 16 +
              c.toNat % 16 = c.toNat := by
            have := Nat.div_add_mod c.toNat 16
            omega
          rw [harith, Char.ofNat_toNat]
        rw [hch, ih]
        simp
      · have hesc : escCharJ c = [c] := by
          unfold escCharJ
          rw [if_neg h1, if_neg h2, if_neg h3, if_neg h4, if_neg h5, if_neg h6,
            if_neg h7, if_neg h8]
        rw [hesc]
        rw [show ([c] ++ (concatMapL escCharJ cs ++ ('"' :: rest))) =
          c :: (concatMapL escCharJ cs ++ ('"' :: rest)) from rfl]
        rw [parseStrBody_plain _ _ _ h1 h2 h8, ih]
        simp

theorem ppStrL_parse (s : String) (rest acc : List Char) :
    parseStrBody ((concatMapL escCharJ s.data ++ ['"']) ++ rest) acc =
      some (⟨acc ++ s.data⟩, rest) := by
  rw [show ((concatMapL escCharJ s.data ++ ['"']) ++ rest) =
    (concatMapL escCharJ s.data ++ ('"' :: rest)) by simp]
  exact parseStrBody_esc s.data acc rest

/-! ## First characters of printed values -/

theorem ppJson_head (ind : Nat) (j : Json) (hp : plainJ j = true) :
    ∃ c cs, ppJson ind j = c :: cs ∧ jsonWsCh c = false ∧ c ≠ ']' ∧
      c ≠ '\x7d' := by
  cases j with
  | jnumX lex => exact absurd hp (by simp [plainJ])
  | jnull => exact ⟨'n', _, rfl, by decide, by decide, by decide⟩
  | jbool b =>
      cases b with
      | true => exact ⟨'t', _, by rfl, by decide, by decide, by decide⟩
      | false => exact ⟨'f', _, by rfl, by decide, by decide, by decide⟩
  | jnum n =>
      obtain ⟨d, ds, hd, hdig⟩ := natDigits_cons n
      obtain ⟨hw, hb, hc⟩ := digit_not_special d hdig
      exact ⟨d, ds, by rw [show ppJson ind (.jnum n) = natDigits n from rfl, hd],
        hw, hb, hc⟩
  | jstr s => exact ⟨'"', _, rfl, by decide, by decide, by decide⟩
  | jarr l =>
      cases l with
      | nil => exact ⟨'[', _, rfl, by decide, by decide, by decide⟩
      | cons h t => exact ⟨'[', _, rfl, by decide, by decide, by decide⟩
  | jobj f =>
      cases f with
      | nil => exact ⟨'\x7b', _, rfl, by decide, by decide, by decide⟩
      | cons k v t => exact ⟨'\x7b', _, rfl, by decide, by decide, by decide⟩

theorem mk_data_eq (s : String) : (⟨s.data⟩ : String) = s := by cases s; rfl

theorem parseVal_null (m : Nat) (rest : List Char) :
    parseVal (m + 1) ('n' :: 'u' :: 'l' :: 'l' :: rest) = some (.jnull, rest) := by
  simp only [parseVal]
  rw [skipWs_cons_not _ _ (by decide)]
  simp [(by decide : isDigitCh 'n' = false)]

theorem parseVal_num (m n : Nat) (rest : List Char) (hrest : numBoundary rest) :
    parseVal (m + 1) (natDigits n ++ rest) = some (.jnum n, rest) := by
  obtain ⟨d, ds, hd, hdig⟩ := natDigits_cons n
  simp only [parseVal]
  rw [hd, show (d :: ds) ++ rest = d :: (ds ++ rest) from rfl]
  rw [skipWs_cons_not _ _ (digit_not_special d hdig).1]
  simp only [hdig, eq_self_iff_true, or_true, if_true]
  rw [show d :: (ds ++ rest) = (d :: ds) ++ rest from rfl, ← hd]
  exact parseNum_natDigits n rest hrest

theorem parseVal_str (m : Nat) (s : String) (rest : List Char) :
    parseVal (m + 1) (ppStrL s ++ rest) = some (.jstr s, rest) := by
  simp only [parseVal, ppStrL]
  rw [show (('"' :: (concatMapL escCharJ s.data ++ ['"'])) ++ rest) =
    '"' :: ((concatMapL escCharJ s.data ++ ['"']) ++ rest) from rfl]
  rw [skipWs_cons_not _ _ (by decide)]
  simp only [eq_false (by decide : ¬(('"' : Char) = '-' ∨ isDigitCh '"' = true)),
    if_false, if_pos rfl, ppStrL_parse s rest []]
  simp [mk_data_eq]

theorem parseVal_arr_nil (m : Nat) (rest : List Char) :
    parseVal (m + 1) ('[' :: ']' :: rest) = some (.jarr .nil, rest) := by
  simp only [parseVal]
  rw [skipWs_cons_not _ _ (by decide)]
  simp [(by decide : isDigitCh '[' = false),
    skipWs_cons_not _ _ (by decide : jsonWsCh ']' = false)]

theorem parseVal_arr (m : Nat) (r : List Char)
    (h : (skipWs r).head? ≠ some ']') :
    parseVal (m + 1) ('[' :: r) =
      match parseItems m r with
      | some (vs, r2) => some (.jarr vs, r2)
      | none => none := by
  simp only [parseVal]
  rw [skipWs_cons_not _ _ (by decide)]
  simp [(by decide : isDigitCh '[' = false), h]

theorem parseVal_obj (m : Nat) (r : List Char)
    (h : (skipWs r).head? ≠ some '\x7d') :
    parseVal (m + 1) ('\x7b' :: r) =
      match parseFields m r with
      | some (fs, r2) => some (.jobj fs, r2)
      | none => none := by
  simp only [parseVal]
  rw [skipWs_cons_not _ _ (by decide)]
  simp [(by decide : isDigitCh '\x7b' = false), h]
theorem parseVal_bool (m : Nat) (b : Bool) (rest : List Char) :
    parseVal (m + 1) ((if b then ['t', 'r', 'u', 'e']
      else ['f', 'a', 'l', 's', 'e']) ++ rest) = some (.jbool b, rest) := by
  cases b with
  | true =>
      show parseVal (m + 1) (['t', 'r', 'u', 'e'] ++ rest) = _
      simp only [parseVal]
      rw [show (['t', 'r', 'u', 'e'] ++ rest) =
        't' :: 'r' :: 'u' :: 'e' :: rest from rfl]
      rw [skipWs_cons_not _ _ (by decide)]
      simp [(by decide : isDigitCh 't' = false)]
  | false =>
      show parseVal (m + 1) (['f', 'a', 'l', 's', 'e'] ++ rest) = _
      simp only [parseVal]
      rw [show (['f', 'a', 'l', 's', 'e'] ++ rest) =
        'f' :: 'a' :: 'l' :: 's' :: 'e' :: rest from rfl]
      rw [skipWs_cons_not _ _ (by decide)]
      simp [(by decide : isDigitCh 'f' = false)]

theorem parseVal_ws (fuel : Nat) (ws cs : List Char)
    (h : ∀ c ∈ ws, jsonWsCh c = true) :
    parseVal fuel (ws ++ cs) = parseVal fuel cs := by
  cases fuel with
  | zero => rfl
  | succ m =>
      simp only [parseVal]
      rw [skipWs_append _ _ h]

theorem needV_pos (j : Json) : 1 ≤ needV j := by
  cases j <;> simp [needV]

theorem needL_pos (l : JsonList) : 1 ≤ needL l := by
  cases l <;> simp [needL]

theorem needF_pos (f : JsonFields) : 1 ≤ needF f := by
  cases f <;> simp [needF]

theorem ppItems_cons_shape (ind : Nat) (h : Json) (t : JsonList) :
    ∃ suffix, ppItems ind (.cons h t) =
      spacesL ind ++ (ppJson ind h ++ suffix) := by
  cases t with
  | nil => exact ⟨[], by simp [ppItems]⟩
  | cons h2 t2 =>
      exact ⟨',' :: '\n' :: ppItems ind (.cons h2 t2), by simp [ppItems]⟩

theorem cons_ws_all (c : Char) (ws : List Char) (hc : jsonWsCh c = true)
    (h : ∀ x ∈ ws, jsonWsCh x = true) : ∀ x ∈ c :: ws, jsonWsCh x = true := by
  intro x hx
  rcases List.mem_cons.mp hx with h1 | h1
  · subst h1; exact hc
  · exact h x h1

theorem append_ws_all (ws1 ws2 : List Char)
    (h1 : ∀ x ∈ ws1, jsonWsCh x = true) (h2 : ∀ x ∈ ws2, jsonWsCh x = true) :
    ∀ x ∈ ws1 ++ ws2, jsonWsCh x = true := by
  intro x hx
  rcases List.mem_append.mp hx with h | h
  · exact h1 x h
  · exact h2 x h
theorem parse_pp (fuel : Nat) :
    (∀ j : Json, plainJ j = true → needV j ≤ fuel →
      ∀ (ws rest : List Char) (ind : Nat),
      (∀ c ∈ ws, jsonWsCh c = true) → numBoundary rest →
      parseVal fuel (ws ++ (ppJson ind j ++ rest)) = some (j, rest)) ∧
    (∀ l : JsonList, l ≠ .nil → plainL l = true → needL l ≤ fuel →
      ∀ (ws1 ws2 rest : List Char) (ind : Nat),
      (∀ c ∈ ws1, jsonWsCh c = true) → (∀ c ∈ ws2, jsonWsCh c = true) →
      parseItems fuel (ws1 ++ (ppItems ind l ++ (ws2 ++ (']' :: rest)))) =
        some (l, rest)) ∧
    (∀ f : JsonFields, f ≠ .nil → plainF f = true → needF f ≤ fuel →
      ∀ (ws1 ws2 rest : List Char) (ind : Nat),
      (∀ c ∈ ws1, jsonWsCh c = true) → (∀ c ∈ ws2, jsonWsCh c = true) →
      parseFields fuel
        (ws1 ++ (ppFields ind f ++ (ws2 ++ ('\x7d' :: rest)))) =
        some (f, rest)) := by
  induction fuel using Nat.strong_induction_on with
  | _ fuel ih =>
  refine ⟨?_, ?_, ?_⟩
  · -- values
    intro j hplain hfuel ws rest ind hws hrest
    have hpos := needV_pos j
    obtain ⟨m, rfl⟩ : ∃ m, fuel = m + 1 := ⟨fuel - 1, by omega⟩
    rw [parseVal_ws _ _ _ hws]
    cases j with
    | jnumX lex => exact absurd hplain (by simp [plainJ])
    | jnull =>
        rw [show ppJson ind .jnull = ['n', 'u', 'l', 'l'] by simp [ppJson]]
        exact parseVal_null m rest
    | jbool b =>
        rw [show ppJson ind (.jbool b) =
          (if b then ['t', 'r', 'u', 'e'] else ['f', 'a', 'l', 's', 'e']) by
          simp [ppJson]]
        exact parseVal_bool m b rest
    | jnum n =>
        rw [show ppJson ind (.jnum n) = natDigits n by simp [ppJson]]
        exact parseVal_num m n rest hrest
    | jstr s =>
        rw [show ppJson ind (.jstr s) = ppStrL s by simp [ppJson]]
        exact parseVal_str m s rest
    | jarr l =>
        cases l with
        | nil =>
            rw [show ppJson ind (.jarr .nil) ++ rest = '[' :: ']' :: rest by
              simp [ppJson]]
            exact parseVal_arr_nil m rest
        | cons h t =>
            rw [show ppJson ind (.jarr (.cons h t)) ++ rest =
              '[' :: (['\n'] ++ (ppItems (ind + 2) (.cons h t) ++
                (('\n' :: spacesL ind) ++ (']' :: rest)))) by simp [ppJson]]
            have hplainL : plainL (.cons h t) = true := by
              simpa [plainJ] using hplain
            have hplainh : plainJ h = true := by
              simp only [plainL, Bool.and_eq_true] at hplainL
              exact hplainL.1
            obtain ⟨suffix, hsu⟩ := ppItems_cons_shape (ind + 2) h t
            obtain ⟨c0, cs0, hc0, hc0w, hc0b, _⟩ :=
              ppJson_head (ind + 2) h hplainh
            have hskip : skipWs (['\n'] ++ (ppItems (ind + 2) (.cons h t) ++
                (('\n' :: spacesL ind) ++ (']' :: rest)))) =
                c0 :: (cs0 ++ (suffix ++ (('\n' :: spacesL ind) ++
                  (']' :: rest)))) := by
              rw [hsu, hc0]
              rw [show (['\n'] ++ ((spacesL (ind + 2) ++ ((c0 :: cs0) ++ suffix)) ++
                  (('\n' :: spacesL ind) ++ (']' :: rest)))) =
                ('\n' :: spacesL (ind + 2)) ++ (c0 :: (cs0 ++ (suffix ++
                  (('\n' :: spacesL ind) ++ (']' :: rest))))) by simp]
              rw [skipWs_append _ _
                (cons_ws_all _ _ (by decide) (spacesL_all_ws _))]
              exact skipWs_cons_not _ _ hc0w
            rw [parseVal_arr m _ (by rw [hskip]; simp [hc0b])]
            have hL := (ih m (by omega)).2.1 (.cons h t) (by simp) hplainL
              (by simp [needV] at hfuel; omega)
              ['\n'] ('\n' :: spacesL ind) rest (ind + 2)
              (by intro x hx; simp at hx; subst hx; decide)
              (cons_ws_all _ _ (by decide) (spacesL_all_ws _))
            rw [hL]
    | jobj f =>
        cases f with
        | nil =>
            rw [show ppJson ind (.jobj .nil) ++ rest = '\x7b' :: '\x7d' :: rest by
              simp [ppJson]]
            simp only [parseVal]
            rw [skipWs_cons_not _ _ (by decide)]
            simp [(by decide : isDigitCh '\x7b' = false),
              skipWs_cons_not _ _ (by decide : jsonWsCh '\x7d' = false)]
        | cons k v t =>
            rw [show ppJson ind (.jobj (.cons k v t)) ++ rest =
              '\x7b' :: (['\n'] ++ (ppFields (ind + 2) (.cons k v t) ++
                (('\n' :: spacesL ind) ++ ('\x7d' :: rest)))) by simp [ppJson]]
            have hkey : ∃ kd, ppFields (ind + 2) (.cons k v t) =
                spacesL (ind + 2) ++ ('"' :: kd) := by
              cases t with
              | nil =>
                  exact ⟨(concatMapL escCharJ k.data ++ ['"']) ++
                    (':' :: ' ' :: ppJson (ind + 2) v), by
                    simp [ppFields, ppStrL]⟩
              | cons k2 v2 t2 =>
                  exact ⟨(concatMapL escCharJ k.data ++ ['"']) ++
                    ((':' :: ' ' :: ppJson (ind + 2) v) ++
                      (',' :: '\n' :: ppFields (ind + 2) (.cons k2 v2 t2))), by
                    simp [ppFields, ppStrL]⟩
            obtain ⟨kd, hkd⟩ := hkey
            have hskip : skipWs (['\n'] ++ (ppFields (ind + 2) (.cons k v t) ++
                (('\n' :: spacesL ind) ++ ('\x7d' :: rest)))) =
                '"' :: (kd ++ (('\n' :: spacesL ind) ++ ('\x7d' :: rest))) := by
              rw [hkd]
              rw [show (['\n'] ++ ((spacesL (ind + 2) ++ ('"' :: kd)) ++
                  (('\n' :: spacesL ind) ++ ('\x7d' :: rest)))) =
                ('\n' :: spacesL (ind + 2)) ++ ('"' :: (kd ++
                  (('\n' :: spacesL ind) ++ ('\x7d' :: rest)))) by simp]
              rw [skipWs_append _ _
                (cons_ws_all _ _ (by decide) (spacesL_all_ws _))]
              exact skipWs_cons_not _ _ (by decide)
            rw [parseVal_obj m _ (by rw [hskip]; simp)]
            have hplainF : plainF (.cons k v t) = true := by
              simpa [plainJ] using hplain
            have hF := (ih m (by omega)).2.2 (.cons k v t) (by simp) hplainF
              (by simp [needV] at hfuel; omega)
              ['\n'] ('\n' :: spacesL ind) rest (ind + 2)
              (by intro x hx; simp at hx; subst hx; decide)
              (cons_ws_all _ _ (by decide) (spacesL_all_ws _))
            rw [hF]
  · -- array items
    intro l hne hplain hfuel ws1 ws2 rest ind hws1 hws2
    have hpos := needL_pos l
    obtain ⟨m, rfl⟩ : ∃ m, fuel = m + 1 := ⟨fuel - 1, by omega⟩
    cases l with
    | nil => exact absurd rfl hne
    | cons h t =>
        have hVm := (ih m (by omega)).1
        have hph : plainJ h = true ∧ plainL t = true := by
          simpa [plainL, Bool.and_eq_true] using hplain
        have hneed : needV h ≤ m ∧ needL t ≤ m := by
          simp [needL] at hfuel
          omega
        simp only [parseItems]
        cases t with
        | nil =>
            rw [show ws1 ++ (ppItems ind (.cons h .nil) ++
                (ws2 ++ (']' :: rest))) =
              (ws1 ++ spacesL ind) ++ (ppJson ind h ++
                (ws2 ++ (']' :: rest))) by simp [ppItems]]
            rw [hVm h hph.1 hneed.1 _ _ ind
              (append_ws_all _ _ hws1 (spacesL_all_ws _))
              (numBoundary_ws_append _ _ hws2
                (numBoundary_cons _ _ (by decide)))]
            simp only []
            rw [skipWs_append _ _ hws2, skipWs_cons_not _ _ (by decide)]
            simp
        | cons h2 t2 =>
            rw [show ws1 ++ (ppItems ind (.cons h (.cons h2 t2)) ++
                (ws2 ++ (']' :: rest))) =
              (ws1 ++ spacesL ind) ++ (ppJson ind h ++
                (',' :: ('\n' :: (ppItems ind (.cons h2 t2) ++
                  (ws2 ++ (']' :: rest)))))) by simp [ppItems]]
            rw [hVm h hph.1 hneed.1 _ _ ind
              (append_ws_all _ _ hws1 (spacesL_all_ws _))
              (numBoundary_cons _ _ (by decide))]
            simp only []
            rw [skipWs_cons_not _ _ (by decide)]
            have hrec := (ih m (by omega)).2.1 (.cons h2 t2) (by simp)
              hph.2 hneed.2 ['\n'] ws2 rest ind
              (by intro x hx; simp at hx; subst hx; decide) hws2
            simp only [List.singleton_append] at hrec
            rw [if_pos (show (',' :: ('\n' :: (ppItems ind (.cons h2 t2) ++
              (ws2 ++ (']' :: rest))))).head? = some ',' from rfl)]
            simp only [List.tail_cons]
            rw [hrec]
  · -- object fields
    intro f hne hplain hfuel ws1 ws2 rest ind hws1 hws2
    have hpos := needF_pos f
    obtain ⟨m, rfl⟩ : ∃ m, fuel = m + 1 := ⟨fuel - 1, by omega⟩
    cases f with
    | nil => exact absurd rfl hne
    | cons k v t =>
        have hVm := (ih m (by omega)).1
        have hpv : plainJ v = true ∧ plainF t = true := by
          simpa [plainF, Bool.and_eq_true] using hplain
        have hneed : needV v ≤ m ∧ needF t ≤ m := by
          simp [needF] at hfuel
          omega
        simp only [parseFields]
        cases t with
        | nil =>
            rw [show ws1 ++ (ppFields ind (.cons k v .nil) ++
                (ws2 ++ ('\x7d' :: rest))) =
              (ws1 ++ spacesL ind) ++ ('"' ::
                ((concatMapL escCharJ k.data ++ ['"']) ++
                  (':' :: (' ' :: (ppJson ind v ++
                    (ws2 ++ ('\x7d' :: rest))))))) by
              simp [ppFields, ppStrL]]
            rw [skipWs_append _ _
              (append_ws_all _ _ hws1 (spacesL_all_ws _))]
            rw [skipWs_cons_not _ _ (by decide)]
            simp only [ppStrL_parse, List.nil_append, mk_data_eq]
            rw [skipWs_cons_not _ _ (by decide : jsonWsCh ':' = false)]
            rw [if_pos (show (':' :: (' ' :: (ppJson ind v ++
              (ws2 ++ ('\x7d' :: rest))))).head? = some ':' from rfl)]
            simp only [List.tail_cons]
            rw [show (' ' :: (ppJson ind v ++ (ws2 ++ ('\x7d' :: rest)))) =
              [' '] ++ (ppJson ind v ++ (ws2 ++ ('\x7d' :: rest))) from rfl]
            rw [hVm v hpv.1 hneed.1 _ _ ind
              (by intro x hx; simp at hx; subst hx; decide)
              (numBoundary_ws_append _ _ hws2
                (numBoundary_cons _ _ (by decide)))]
            simp only []
            rw [skipWs_append _ _ hws2, skipWs_cons_not _ _ (by decide)]
            simp
        | cons k2 v2 t2 =>
            rw [show ws1 ++ (ppFields ind (.cons k v (.cons k2 v2 t2)) ++
                (ws2 ++ ('\x7d' :: rest))) =
              (ws1 ++ spacesL ind) ++ ('"' ::
                ((concatMapL escCharJ k.data ++ ['"']) ++
                  (':' :: (' ' :: (ppJson ind v ++
                    (',' :: ('\n' :: (ppFields ind (.cons k2 v2 t2) ++
                      (ws2 ++ ('\x7d' :: rest)))))))))) by
              simp [ppFields, ppStrL]]
            rw [skipWs_append _ _
              (append_ws_all _ _ hws1 (spacesL_all_ws _))]
            rw [skipWs_cons_not _ _ (by decide)]
            simp only [ppStrL_parse, List.nil_append, mk_data_eq]
            rw [skipWs_cons_not _ _ (by decide : jsonWsCh ':' = false)]
            rw [if_pos (show (':' :: (' ' :: (ppJson ind v ++
              (',' :: ('\n' :: (ppFields ind (.cons k2 v2 t2) ++
                (ws2 ++ ('\x7d' :: rest)))))))).head? = some ':' from rfl)]
            simp only [List.tail_cons]
            rw [show (' ' :: (ppJson ind v ++
                (',' :: ('\n' :: (ppFields ind (.cons k2 v2 t2) ++
                  (ws2 ++ ('\x7d' :: rest))))))) =
              [' '] ++ (ppJson ind v ++
                (',' :: ('\n' :: (ppFields ind (.cons k2 v2 t2) ++
                  (ws2 ++ ('\x7d' :: rest)))))) from rfl]
            rw [hVm v hpv.1 hneed.1 _ _ ind
              (by intro x hx; simp at hx; subst hx; decide)
              (numBoundary_cons _ _ (by decide))]
            simp only []
            rw [skipWs_cons_not _ _ (by decide)]
            have hrec := (ih m (by omega)).2.2 (.cons k2 v2 t2) (by simp)
              hpv.2 hneed.2 ['\n'] ws2 rest ind
              (by intro x hx; simp at hx; subst hx; decide) hws2
            simp only [List.singleton_append] at hrec
            rw [if_pos (show (',' :: ('\n' :: (ppFields ind (.cons k2 v2 t2) ++
              (ws2 ++ ('\x7d' :: rest))))).head? = some ',' from rfl)]
            simp only [List.tail_cons]
            rw [hrec]
theorem need_le_len :
    ∀ (n : Nat),
      (∀ j : Json, sizeOf j ≤ n → ∀ ind,
        needV j ≤ (ppJson ind j).length + 1) ∧
      (∀ l : JsonList, sizeOf l ≤ n → ∀ ind,
        needL l ≤ (ppItems ind l).length + 2) ∧
      (∀ f : JsonFields, sizeOf f ≤ n → ∀ ind,
        needF f ≤ (ppFields ind f).length + 2) := by
  intro n
  induction n using Nat.strong_induction_on with
  | _ n ih =>
  refine ⟨?_, ?_, ?_⟩
  · intro j hsz ind
    cases j with
    | jnull => simp [needV, ppJson]
    | jbool b => cases b <;> simp [needV, ppJson]
    | jnum m => simp [needV, ppJson]
    | jnumX lex =>
        simp only [needV, ppJson]
        omega
    | jstr s => simp [needV, ppJson]
    | jarr l =>
        cases l with
        | nil => simp [needV, needL, ppJson]
        | cons h t =>
            simp only [Json.jarr.sizeOf_spec] at hsz
            have hL := (ih (n - 1) (by omega)).2.1 (.cons h t) (by omega) (ind + 2)
            simp only [needV, ppJson]
            simp only [List.length_cons, List.length_append, List.length_cons,
              spacesL, List.length_replicate, List.length_singleton]
            omega
    | jobj f =>
        cases f with
        | nil => simp [needV, needF, ppJson]
        | cons k v t =>
            simp only [Json.jobj.sizeOf_spec] at hsz
            have hF := (ih (n - 1) (by omega)).2.2 (.cons k v t) (by omega) (ind + 2)
            simp only [needV, ppJson]
            simp only [List.length_cons, List.length_append, List.length_cons,
              spacesL, List.length_replicate, List.length_singleton]
            omega
  · intro l hsz ind
    cases l with
    | nil => simp [needL, ppItems]
    | cons h t =>
        simp only [JsonList.cons.sizeOf_spec] at hsz
        have hV := (ih (n - 1) (by omega)).1 h (by omega) ind
        have hpv := needV_pos h
        cases t with
        | nil =>
            simp only [needL, needL.eq_1, ppItems]
            simp only [List.length_append, spacesL, List.length_replicate]
            omega
        | cons h2 t2 =>
            have hT := (ih (n - 1) (by omega)).2.1 (.cons h2 t2) (by omega) ind
            have hpt := needL_pos (.cons h2 t2)
            simp only [needL] at hT hpt ⊢
            simp only [ppItems]
            simp only [List.length_append, List.length_cons, spacesL,
              List.length_replicate]
            omega
  · intro f hsz ind
    cases f with
    | nil => simp [needF, ppFields]
    | cons k v t =>
        simp only [JsonFields.cons.sizeOf_spec] at hsz
        have hV := (ih (n - 1) (by omega)).1 v (by omega) ind
        have hpv := needV_pos v
        cases t with
        | nil =>
            simp only [needF, needF.eq_1, ppFields]
            simp only [List.length_append, List.length_cons, spacesL,
              List.length_replicate]
            omega
        | cons k2 v2 t2 =>
            have hT := (ih (n - 1) (by omega)).2.2 (.cons k2 v2 t2) (by omega) ind
            have hpt := needF_pos (.cons k2 v2 t2)
            simp only [needF] at hT hpt ⊢
            simp only [ppFields]
            simp only [List.length_append, List.length_cons, spacesL,
              List.length_replicate]
            omega

theorem jsonParse_pp (j : Json) (hpl : plainJ j = true) :
    jsonParse ⟨ppJson 0 j⟩ = some j := by
  unfold jsonParse
  have hd : (⟨ppJson 0 j⟩ : String).data = ppJson 0 j := rfl
  rw [hd]
  have hb : needV j ≤ (ppJson 0 j).length + 1 :=
    (need_le_len (sizeOf j)).1 j le_rfl 0
  have hp := (parse_pp ((ppJson 0 j).length + 1)).1 j hpl hb [] [] 0
    (by intro c hc; simp at hc) numBoundary_nil
  simp only [List.nil_append, List.append_nil] at hp
  rw [hp]
  rfl
theorem svToJson_inj (a b : SVal) (h : svToJson a = svToJson b) : a = b := by
  cases a <;> cases b <;> simp [svToJson] at h <;> simp [h]

theorem svListToJson_inj :
    ∀ a b : List SVal, svListToJson a = svListToJson b → a = b := by
  intro a
  induction a with
  | nil =>
      intro b h
      cases b with
      | nil => rfl
      | cons y ys => simp [svListToJson] at h
  | cons x xs ih =>
      intro b h
      cases b with
      | nil => simp [svListToJson] at h
      | cons y ys =>
          simp only [svListToJson, JsonList.cons.injEq] at h
          rw [svToJson_inj x y h.1, ih ys h.2]

theorem outputModeToJson_inj (a b : OutputMode)
    (h : outputModeToJson a = outputModeToJson b) : a = b := by
  cases a <;> cases b <;> simp [outputModeToJson] at h <;> rfl

theorem typeToJson_inj (a b : FieldSourceType)
    (h : typeToJson a = typeToJson b) : a = b := by
  cases a <;> cases b <;> simp [typeToJson] at h <;> rfl

theorem answerConfigToJson_inj (a b : AnswerConfig)
    (h : answerConfigToJson a = answerConfigToJson b) : a = b := by
  cases a with
  | mk ska oma oia =>
      cases b with
      | mk skb omb oib =>
          simp only [answerConfigToJson, Json.jobj.injEq,
            JsonFields.cons.injEq, Json.jarr.injEq] at h
          obtain ⟨-, h1, -, h2, -, h3, -⟩ := h
          rw [svToJson_inj _ _ h1, outputModeToJson_inj _ _ h2,
            svListToJson_inj _ _ h3]

theorem fieldToJson_inj (a b : ExportField)
    (h : fieldToJson a = fieldToJson b) : a = b := by
  cases a with
  | mk ida hna ta sva aca =>
      cases b with
      | mk idb hnb tb svb acb =>
          simp only [fieldToJson, Json.jobj.injEq, JsonFields.cons.injEq,
            Json.jstr.injEq] at h
          obtain ⟨-, h1, -, h2, -, h3, -, h4, h5⟩ := h
          rw [h1, h2, typeToJson_inj _ _ h3, svToJson_inj _ _ h4]
          cases aca with
          | none =>
              cases acb with
              | none => rfl
              | some x => simp at h5
          | some x =>
              cases acb with
              | none => simp at h5
              | some y =>
                  simp only [JsonFields.cons.injEq] at h5
                  rw [answerConfigToJson_inj _ _ h5.2.1]

theorem configToJson_inj :
    ∀ a b : List ExportField, configToJson a = configToJson b → a = b := by
  intro a
  induction a with
  | nil =>
      intro b h
      cases b with
      | nil => rfl
      | cons y ys => simp [configToJson] at h
  | cons x xs ih =>
      intro b h
      cases b with
      | nil => simp [configToJson] at h
      | cons y ys =>
          simp only [configToJson, JsonList.cons.injEq] at h
          rw [fieldToJson_inj x y h.1, ih ys h.2]

theorem svToJson_plain (v : SVal) : plainJ (svToJson v) = true := by
  cases v <;> simp [svToJson, plainJ]

theorem svListToJson_plain (l : List SVal) :
    plainL (svListToJson l) = true := by
  induction l with
  | nil => simp [svListToJson, plainL]
  | cons v l ih => simp [svListToJson, plainL, svToJson_plain, ih]

theorem outputModeToJson_plain (m : OutputMode) :
    plainJ (outputModeToJson m) = true := by
  cases m <;> simp [outputModeToJson, plainJ]

theorem typeToJson_plain (t : FieldSourceType) :
    plainJ (typeToJson t) = true := by
  cases t <;> simp [typeToJson, plainJ]

theorem answerConfigToJson_plain (a : AnswerConfig) :
    plainJ (answerConfigToJson a) = true := by
  have h1 := svToJson_plain a.sourceKeyIdx
  have h2 := outputModeToJson_plain a.outputMode
  have h3 := svListToJson_plain a.optionIndices
  simp only [answerConfigToJson, plainJ, plainF, h1, h2, h3, Bool.and_true,
    Bool.true_and]

theorem fieldToJson_plain (f : ExportField) :
    plainJ (fieldToJson f) = true := by
  have h1 := typeToJson_plain f.type
  have h2 := svToJson_plain f.sourceValue
  cases hac : f.answerConfig with
  | none =>
      simp only [fieldToJson, hac, plainJ, plainF, h1, h2, Bool.and_true,
        Bool.true_and]
  | some a =>
      have h3 := svToJson_plain a.sourceKeyIdx
      have h4 := outputModeToJson_plain a.outputMode
      have h5 := svListToJson_plain a.optionIndices
      simp only [fieldToJson, hac, answerConfigToJson, plainJ, plainF,
        h1, h2, h3, h4, h5, Bool.and_true, Bool.true_and]

theorem configToJson_plain (c : List ExportField) :
    plainL (configToJson c) = true := by
  induction c with
  | nil => simp [configToJson, plainL]
  | cons f l ih => simp [configToJson, plainL, fieldToJson_plain, ih]

/-- Claim C8 (confirmed): serializing any configuration and deserializing
the result yields exactly the JSON value of that configuration (the
descriptor array in order, with all attributes), and that value
determines the configuration uniquely — so the round trip is structurally
the identity, for every configuration built from the four descriptor
kinds including SmartAnswer fields with set and unset option slots. -/
theorem c8_thm (c : List ExportField) :
    jsonParse (serializeConfig c) = some (.jarr (configToJson c)) ∧
    (∀ c' : List ExportField, configToJson c' = configToJson c → c' = c) := by
  constructor
  · exact jsonParse_pp (.jarr (configToJson c))
      (by simp [plainJ, configToJson_plain])
  · intro c' h
    exact configToJson_inj c' c h

/-- Witness for C8 at a concrete configuration exercising all four
descriptor kinds, with set and unset option slots. -/
theorem c8_witness :
    jsonParse (serializeConfig
      [⟨"f1", "name", .filename, .str "", none⟩,
       ⟨"f2", "note", .constant, .str "fixed, \"quoted\"", none⟩,
       ⟨"f3", "q", .csv_column, .num 2, none⟩,
       ⟨"f4", "ans", .smart_answer, .str "",
         some ⟨.num 5, .content, [.num 1, .str "", .num 3, .num 4]⟩⟩]) =
      some (.jarr (configToJson
      [⟨"f1", "name", .filename, .str "", none⟩,
       ⟨"f2", "note", .constant, .str "fixed, \"quoted\"", none⟩,
       ⟨"f3", "q", .csv_column, .num 2, none⟩,
       ⟨"f4", "ans", .smart_answer, .str "",
         some ⟨.num 5, .content, [.num 1, .str "", .num 3, .num 4]⟩⟩])) ∧
    ([⟨"f1", "h", .csv_column, .num 0, none⟩] : List ExportField) =
      [⟨"f1", "h", .csv_column, .num 0, none⟩] := by
  constructor
  · exact (c8_thm _).1
  · exact (c8_thm [⟨"f1", "h", .csv_column, .num 0, none⟩]).2 _ rfl

/-- Claim C3 (corrected), counterexample to the claim as stated: the
input text `42` is not a well-formed configuration document — no
configuration serializes to a bare number — yet importing it raises no
ConfigParseError: `JSON.parse` succeeds and the value is applied, so the
previously held configuration is replaced by the number 42 instead of
being retained. -/
theorem c3_counterexample :
    importConfigModel (.jarr (configToJson [])) "42" = .jnum 42 ∧
    (∀ c : List ExportField, Json.jarr (configToJson c) ≠ .jnum 42) ∧
    Json.jnum 42 ≠ .jarr (configToJson []) := by
  refine ⟨by decide, ?_, by decide⟩
  intro c
  simp

/-- Claim C3 (corrected, amended): deserialization fails — and the
previously held configuration is retained unchanged — exactly when the
input text is not well-formed JSON; any input that parses as JSON is
applied as the new configuration without validation, even when it is not
a well-formed configuration document. -/
theorem c3_thm (prev : Json) (text : String) :
    (jsonParse text = none → importConfigModel prev text = prev) ∧
    (∀ j, jsonParse text = some j → importConfigModel prev text = j) := by
  constructor
  · intro h
    simp [importConfigModel, h]
  · intro j h
    simp [importConfigModel, h]

/-- Witness for C3: malformed input retains the previous configuration;
well-formed JSON replaces it. -/
theorem c3_witness :
    importConfigModel (.jarr (configToJson [])) "oops" =
      .jarr (configToJson []) ∧
    importConfigModel (.jarr (configToJson [])) "[]" = .jarr .nil := by
  exact ⟨(c3_thm _ "oops").1 (by decide),
    (c3_thm _ "[]").2 (.jarr .nil) (by decide)⟩
end ExamFactory
